import Mathlib

/-!
Verification development for `app.py`, a batch OCR / text-mining pipeline:
image discovery, reading-order reconstruction of OCR text regions,
URL extraction, and aggregate artifact generation.

Strings are modelled as Lean `String`/`List Char` (Python `str` is a sequence
of Unicode code points, as is `String.data`).  Python's `re` scanning for the
specific pattern `URL_REGEX` is embedded as a direct recursive matcher whose
greedy/backtracking behaviour on this one pattern is worked out case by case;
bounding-box coordinates (Python floats in normalized [0,1]) are modelled as
rationals, which carries the ordering structure the sort uses.
-/

namespace SignalOcr

/-- The single-quote character `'` (written via its code point to keep the
source free of quote-escape literals). -/
def squote : Char := Char.ofNat 39

/-- Python `\s` (whitespace class) restricted to the characters the `re`
module treats as whitespace in the ASCII/Latin-1 range; the additional
Unicode space code points behave identically and are not exercised here. -/
def isWsChar (c : Char) : Bool :=
  c = ' ' || c = '\t' || c = '\n' || c = '\r' || c = '\x0b' || c = '\x0c' ||
  c = '\x1c' || c = '\x1d' || c = '\x1e' || c = '\x1f' || c = '\x85'

/-- Python `\w` (word character) as used by `\b`: letters, digits, underscore
(ASCII model; only ASCII letters occur at scheme starts). -/
def isWordChar (c : Char) : Bool := c.isAlphanum || c = '_'

/-- Character class `[^\s<>"'()]` of `URL_REGEX` (the scheme-tail run). -/
def urlChar1 (c : Char) : Bool :=
  !(isWsChar c || c = '<' || c = '>' || c = '"' || c = squote ||
    c = '(' || c = ')')

/-- Character class `[^\s<>"']` of `URL_REGEX` (inside/after parentheses:
parentheses themselves are allowed). -/
def urlChar2 (c : Char) : Bool :=
  !(isWsChar c || c = '<' || c = '>' || c = '"' || c = squote)

/-- Case-insensitive prefix test: does `cs` start with (lower-case) `pat`
up to `Char.toLower`?  Models the `(?i)` flag on the scheme literals. -/
def ciPrefix (pat cs : List Char) : Bool :=
  (cs.take pat.length).map Char.toLower == pat

/-- Length of the scheme alternative `(?:https?://|www\.)` matched at the
head of `cs`, if any (case-insensitive). -/
def schemeLen (cs : List Char) : Option Nat :=
  if ciPrefix "https://".data cs then some 8
  else if ciPrefix "http://".data cs then some 7
  else if ciPrefix "www.".data cs then some 4
  else none

/-- The iterated group `(?:\([^\s<>"']*\)[^\s<>"']*)*` applied to the maximal
`[^\s<>"']` run `r` that follows the `[^\s<>"'()]+` run: with nothing after
the group in the pattern, greedy matching consumes all of `r` exactly when
`r` begins with `(` and a `)` occurs later in `r`, and consumes nothing
otherwise. -/
def part3ok (r : List Char) : Bool :=
  match r with
  | c :: tl => c = '(' && tl.contains ')'
  | [] => false

/-- Length of the match of `URL_REGEX` (without the leading `\b`) starting
exactly at the head of `cs`:
scheme, then a non-empty maximal `[^\s<>"'()]+` run, then all of the
following maximal `[^\s<>"']*` run when the parenthesis group matches. -/
def matchUrlLen (cs : List Char) : Option Nat :=
  match schemeLen cs with
  | none => none
  | some k =>
    let rest1 := cs.drop k
    let p2 := (rest1.takeWhile urlChar1).length
    if p2 = 0 then none
    else
      let rest2 := rest1.drop p2
      let r := rest2.takeWhile urlChar2
      if part3ok r then some (k + p2 + r.length)
      else some (k + p2)

/-- Is there a word boundary `\b` between the previous character (`none` at
the start of the text) and the current character `c`? -/
def atBoundary (prev : Option Char) (c : Char) : Bool :=
  (match prev with | none => false | some p => isWordChar p) != isWordChar c

/-- One left-to-right scan of `re.finditer(URL_REGEX, text)`: at each
position try the pattern (word boundary, then a match); on success emit the
matched slice and resume after it, otherwise advance one character.  `fuel`
only serves structural recursion; every step consumes at least one character,
so `fuel = length` gives the real scan. -/
def scanAux : Nat → Option Char → List Char → List (List Char)
  | 0, _, _ => []
  | _ + 1, _, [] => []
  | fuel + 1, prev, c :: cs =>
    if atBoundary prev c then
      match matchUrlLen (c :: cs) with
      | some n =>
          ((c :: cs).take n) ::
            scanAux fuel (((c :: cs).take n).getLast?) ((c :: cs).drop n)
      | none => scanAux fuel (some c) cs
    else scanAux fuel (some c) cs

/-- All matches of `URL_REGEX` in `s`, in order of appearance. -/
def urlMatches (s : String) : List (List Char) :=
  scanAux s.data.length none s.data

/-- The set of characters stripped by `.rstrip(".,;:!)?]")`. -/
def stripChars : List Char := ['.', ',', ';', ':', '!', ')', '?', ']']

/-- Python `m.rstrip(".,;:!)?]")`: remove the maximal trailing run of
characters drawn from `stripChars`. -/
def rstripPunct (l : List Char) : List Char :=
  (l.reverse.dropWhile (fun c => stripChars.contains c)).reverse

/-- Per-match normalization of `extract_urls`: strip trailing punctuation,
then prefix `http://` when the (stripped) match starts with the exact
string `www.` (`str.startswith` is case-sensitive). -/
def normalizeUrl (m : List Char) : List Char :=
  let u := rstripPunct m
  if "www.".data.isPrefixOf u then "http://".data ++ u else u

/-- `extract_urls(text)`: every `URL_REGEX` match, normalized, in order of
appearance. -/
def extract_urls (s : String) : List String :=
  (urlMatches s).map (fun m => String.mk (normalizeUrl m))

/-! ### Reading-order reconstruction (`ocr_with_vision`, lines 54-88) -/

/-- A recognized region's bounding box: normalized `[0,1]` coordinates with
origin at bottom-left (floats in the engine; rationals here, which carry the
order structure the sort consumes). -/
structure BoundingBox where
  x : ℚ
  y : ℚ
  width : ℚ
  height : ℚ
deriving DecidableEq

/-- A recognized text region: bounding box plus best-candidate string (an
empty string stands for an observation with no usable candidate; the join
skips those, exactly as the source's `if s:` guard does). -/
structure TextRegion where
  boundingBox : BoundingBox
  text : String
deriving DecidableEq

/-- The sort key `(-bb.origin.y, bb.origin.x)` under Python's lexicographic
tuple comparison. -/
def regionKey (r : TextRegion) : Lex (ℚ × ℚ) :=
  toLex (-r.boundingBox.y, r.boundingBox.x)

/-- Comparison used by `results.sort(key=_key)`. -/
def regionLe (a b : TextRegion) : Prop := regionKey a ≤ regionKey b

instance : DecidableRel regionLe :=
  fun a b => inferInstanceAs (Decidable (regionKey a ≤ regionKey b))

/-- `results.sort(key=_key)`: Python's sort is stable, and a stable sort by a
total preorder is unique, so insertion sort (which is stable) models it. -/
def sortRegions (rs : List TextRegion) : List TextRegion :=
  List.insertionSort regionLe rs

/-- The Reading-Order Reconstructor: sort regions by descending `y` then
ascending `x`, keep the non-empty candidate strings, join with newlines
(lines 73-88 of the source). -/
def readingOrderText (rs : List TextRegion) : String :=
  String.intercalate "\n"
    ((sortRegions rs).filterMap (fun r => if r.text = "" then none else some r.text))

/-- The external OCR engine: given an image path and language hints it
returns the recognized regions, or `none` on any failure (unreadable image:
`cgimage_from_path` returning `None`; engine error: `performRequests_error_`
returning not-ok). -/
def OcrEngine : Type := String → List String → Option (List TextRegion)

/-- `ocr_with_vision(path, langs)` relative to an engine: every failure path
returns `""`; otherwise the regions are reconstructed into a text block. -/
def ocr_with_vision (engine : OcrEngine) (path : String) (langs : List String) : String :=
  match engine path langs with
  | none => ""
  | some results => readingOrderText results

/-! ### Python string helpers used by the aggregator -/

/-- `str.lower()` (ASCII model: extensions and filenames compared here). -/
def pyLower (s : String) : String := String.mk (s.data.map Char.toLower)

/-- `str.startswith(pat)`. -/
def pyStartsWith (s pat : String) : Bool := pat.data.isPrefixOf s.data

/-- The line-boundary characters of `str.splitlines` (`\r\n` is one
boundary; the model covers the code points up to U+2029). -/
def isLineBreak (c : Char) : Bool :=
  c = '\n' || c = '\r' || c = '\x0b' || c = '\x0c' || c = '\x1c' ||
  c = '\x1d' || c = '\x1e' || c = '\x85' || c = Char.ofNat 0x2028 || c = Char.ofNat 0x2029

/-- Worker for `str.splitlines`: `acc` is the current (reversed) line, the
flag records that the previous character was `'\r'` (so a directly
following `'\n'` belongs to the same `"\r\n"` boundary and is skipped); a
final unterminated line is emitted only when non-empty, and a trailing
terminator adds no empty line — exactly Python's behaviour. -/
def splitLinesAux : Bool → List Char → List Char → List (List Char)
  | _, acc, [] => if acc.isEmpty then [] else [acc.reverse]
  | afterCr, acc, c :: tl =>
    if afterCr && c = '\n' then splitLinesAux false acc tl
    else if c = '\r' then acc.reverse :: splitLinesAux true [] tl
    else if isLineBreak c then acc.reverse :: splitLinesAux false [] tl
    else splitLinesAux false (c :: acc) tl

/-- `str.splitlines()`. -/
def pySplitLines (s : String) : List String :=
  (splitLinesAux false [] s.data).map String.mk

/-- The characters `str.strip()` removes (Python `str.isspace`). -/
def isPyStripWs (c : Char) : Bool :=
  ([' ', '\t', '\n', '\r', '\x0b', '\x0c', '\x1c', '\x1d', '\x1e', '\x1f',
    '\x85', '\xa0'] : List Char).contains c ||
  ([0x1680, 0x2000, 0x2001, 0x2002, 0x2003, 0x2004, 0x2005, 0x2006, 0x2007,
    0x2008, 0x2009, 0x200a, 0x2028, 0x2029, 0x202f, 0x205f, 0x3000].map
      Char.ofNat).contains c

/-- `str.strip()`: drop leading and trailing whitespace. -/
def pyStrip (s : String) : String :=
  String.mk (((s.data.dropWhile isPyStripWs).reverse.dropWhile isPyStripWs).reverse)

/-! ### Image Discovery (`list_images`, lines 27-43) -/

/-- `SUPPORTED_EXTS` (line 15). -/
def SUPPORTED_EXTS : List String :=
  [".png", ".jpg", ".jpeg", ".tif", ".tiff", ".bmp", ".gif", ".heic"]

/-- A directory entry as `os.scandir` yields it: a name (no path separator)
and whether `entry.is_file()` holds (regular file, following symlinks). -/
structure DirEntry where
  name : String
  isFile : Bool
deriving DecidableEq

/-- Index of the last `.` in a character list, if any. -/
def lastDotIdx : List Char → Option Nat
  | [] => none
  | c :: rest =>
    match lastDotIdx rest with
    | some i => some (i + 1)
    | none => if c = '.' then some 0 else none

/-- `os.path.splitext` restricted to plain file names (scandir entry names
contain no separator): split at the last dot, except that a dot preceded
only by dots begins no extension. -/
def pySplitext (name : String) : String × String :=
  match lastDotIdx name.data with
  | none => (name, "")
  | some i =>
    if (name.data.take i).all (fun c => c = '.') then (name, "")
    else (String.mk (name.data.take i), String.mk (name.data.drop i))

/-- The body of the `list_images` loop: keep regular files whose name does
not start with `.` and whose lower-cased extension is supported. -/
def eligibleImage (e : DirEntry) : Bool :=
  e.isFile && !(pyStartsWith e.name ".") &&
    SUPPORTED_EXTS.contains (pyLower (pySplitext e.name).2)

/-- `key=lambda p: os.path.basename(p).lower()` as a sort key on names. -/
def nameSortKey (s : String) : List Char := s.data.map Char.toLower

/-- Comparison used by `files.sort(...)`: code-point lexicographic order of
the lower-cased names. -/
def nameLe (a b : String) : Prop := nameSortKey a ≤ nameSortKey b

instance : DecidableRel nameLe :=
  fun a b => inferInstanceAs (Decidable (nameSortKey a ≤ nameSortKey b))

/-- `list_images(in_dir)`: `none` models a missing path or one that is not a
directory (`os.path.isdir` false); otherwise filter the enumerated entries
and stable-sort by lower-cased name. -/
def list_images (dir : Option (List DirEntry)) : List String :=
  match dir with
  | none => []
  | some entries =>
    List.insertionSort nameLe ((entries.filter eligibleImage).map DirEntry.name)

/-! ### Output aggregation (`run`, lines 106-178; `__main__`, 180-187) -/

/-- Per-image result: base file name, reconstructed text, extracted URLs. -/
structure ImageResult where
  base : String
  text : String
  urls : List String
deriving DecidableEq

/-- Worker for `str.split(",")`. -/
def splitCommaAux : List Char → List Char → List String
  | acc, [] => [String.mk acc.reverse]
  | acc, c :: tl =>
    if c = ',' then String.mk acc.reverse :: splitCommaAux [] tl
    else splitCommaAux (c :: acc) tl

/-- `lang_str.split(",")`. -/
def pySplitComma (s : String) : List String := splitCommaAux [] s.data

/-- Language-tag parsing of `run` (lines 116-118): strip each
comma-separated tag, drop empties, default to English/Polish. -/
def parseLangs (langStr : String) : List String :=
  let langs := if langStr = "" then []
    else ((pySplitComma langStr).map pyStrip).filter (fun t => t ≠ "")
  if langs = [] then ["en-US", "pl-PL"] else langs

/-- The markdown section built for one image (lines 135-137). -/
def sectionOf (r : ImageResult) : String :=
  "## " ++ r.base ++ "\n\n```\n" ++ r.text ++ "\n```\n" ++
    (if r.urls ≠ [] then
      "\n**Links detected:**\n" ++
        String.intercalate "\n" (r.urls.map (fun u => "- " ++ u)) ++ "\n"
    else "")

/-- The horizontal-rule separator joining sections in both aggregates. -/
def SECTION_SEP : String := "\n\n---\n\n"

/-- `all_text.md` content (line 142). -/
def combinedMd (sections : List String) : String :=
  "# OCR Output\n\n" ++ String.intercalate SECTION_SEP sections ++ "\n"

/-- The filter of the plain-text pass (line 150): drop lines starting with a
code fence or the links label. -/
def keepPlainLine (ln : String) : Bool :=
  !(pyStartsWith ln "```" || pyStartsWith ln "**Links detected:**")

/-- One plain-text block (lines 147-153): filter the section's lines,
re-join, strip. -/
def plainBlock (sec : String) : String :=
  pyStrip (String.intercalate "\n" ((pySplitLines sec).filter keepPlainLine))

/-- `all_text.txt` content (line 154). -/
def combinedTxt (sections : List String) : String :=
  String.intercalate SECTION_SEP (sections.map plainBlock) ++ "\n"

/-- The deduplication loop (lines 156-161): `seen` is a set whose contents
coincide with the accumulated list, so membership in the accumulator models
it exactly. -/
def dedupUrls (urls : List String) : List String :=
  urls.foldl (fun acc u => if u ∈ acc then acc else acc ++ [u]) []

/-- `urls.txt` content (line 162). -/
def urlsTxtContent (urls : List String) : String :=
  let dedup := dedupUrls urls
  String.intercalate "\n" dedup ++ (if dedup ≠ [] then "\n" else "")

/-- Does `csv.writer` (excel dialect, minimal quoting) quote this field? -/
def csvNeedsQuote (s : String) : Bool :=
  s.data.any (fun c => c = ',' || c = '"' || c = '\r' || c = '\n')

/-- Double each quote character (csv escaping). -/
def csvEscape : List Char → List Char
  | [] => []
  | c :: tl => if c = '"' then '"' :: '"' :: csvEscape tl else c :: csvEscape tl

/-- One csv field under minimal quoting. -/
def csvField (s : String) : String :=
  if csvNeedsQuote s then "\"" ++ String.mk (csvEscape s.data) ++ "\"" else s

/-- One `writerow([f, u])` line (default line terminator `\r\n`). -/
def csvRow (f u : String) : String := csvField f ++ "," ++ csvField u ++ "\r\n"

/-- `urls.csv` content (lines 164-168): header plus one row per occurrence,
in processing order, not deduplicated. -/
def urlsCsvContent (occ : List (String × String)) : String :=
  csvRow "file" "url" ++ String.join (occ.map (fun p => csvRow p.1 p.2))

/-- The per-image loop of `run` (lines 125-140), as data. -/
def imageResults (engine : OcrEngine) (langs : List String) (imgs : List String) :
    List ImageResult :=
  imgs.map (fun name =>
    let text := ocr_with_vision engine name langs
    { base := (pySplitext name).1, text := text, urls := extract_urls text })

/-- `all_urls` (line 133): one `(base, url)` pair per occurrence, in
processing order. -/
def allUrlOccurrences (results : List ImageResult) : List (String × String) :=
  results.flatMap (fun r => r.urls.map (fun u => (r.base, u)))

/-- The progress line printed per image (line 140); `os.path.join` modelled
by `/`-concatenation for the relative paths at hand. -/
def progressLine (outDir name base text : String) (urls : List String) : String :=
  "OCR: " ++ name ++ " -> " ++ outDir ++ "/txt/" ++ base ++ ".txt (" ++
    toString text.length ++ " chars, " ++ toString urls.length ++ " links)"

/-- The final summary print (lines 170-178). -/
def summaryText (outDir : String) (numImgs : Nat) : String :=
  "\nDone.\n- Images: " ++ toString numImgs ++
  "\n- Per-image text: " ++ outDir ++ "/txt" ++
  "\n- Combined markdown: " ++ outDir ++ "/all_text.md" ++
  "\n- Combined text: " ++ outDir ++ "/all_text.txt" ++
  "\n- URLs (dedup): " ++ outDir ++ "/urls.txt" ++
  "\n- URL map CSV: " ++ outDir ++ "/urls.csv"

/-- The artifact files a completed run writes. -/
structure Artifacts where
  txtFiles : List (String × String)
  allTextMd : String
  allTextTxt : String
  urlsTxt : String
  urlsCsv : String
deriving DecidableEq

/-- Observable outcome of `run`: artifacts written (none when the run ends
at the no-images guard) and console output. -/
structure RunResult where
  artifacts : Option Artifacts
  console : List String
deriving DecidableEq

/-- `run(in_dir, out_dir, lang_str)` (lines 106-178), relative to a
directory listing and an OCR engine. -/
def run (dir : Option (List DirEntry)) (engine : OcrEngine)
    (outDir langStr : String) : RunResult :=
  let imgs := list_images dir
  if imgs = [] then { artifacts := none, console := ["No images found."] }
  else
    let langs := parseLangs langStr
    let results := imageResults engine langs imgs
    let sections := results.map sectionOf
    let occ := allUrlOccurrences results
    { artifacts := some
        { txtFiles := results.map (fun r => (r.base, r.text))
          allTextMd := combinedMd sections
          allTextTxt := combinedTxt sections
          urlsTxt := urlsTxtContent (occ.map Prod.snd)
          urlsCsv := urlsCsvContent occ }
      console :=
        (imgs.map (fun name =>
          let text := ocr_with_vision engine name langs
          progressLine outDir name (pySplitext name).1 text (extract_urls text))) ++
        [summaryText outDir imgs.length] }

/-- Split a character list at `'\n'` (every separator splits; a trailing
separator yields a trailing empty segment). -/
def splitNlAux : List Char → List Char → List (List Char)
  | acc, [] => [acc.reverse]
  | acc, c :: tl =>
    if c = '\n' then acc.reverse :: splitNlAux [] tl
    else splitNlAux (c :: acc) tl

/-- The lines of a recognized text, split at `'\n'`. -/
def textLines (t : String) : List String :=
  (splitNlAux [] t.data).map String.mk

/-- The specification's view of one plain-text section (stated from the
spec's words, for comparison with the code's `plainBlock`): the markdown
section of §4.5 with only its two code-fence framing lines and its
"links detected" label line removed, content otherwise preserved. -/
def claimedPlainSection (r : ImageResult) : String :=
  "## " ++ r.base ++ "\n\n" ++ r.text ++
    (if r.urls ≠ [] then
      "\n\n" ++ String.intercalate "\n" (r.urls.map (fun u => "- " ++ u))
    else "")

/-- A string free of characters a csv writer or line splitter treats
specially (no separator, quote, or line-boundary characters). -/
def csvPlain (s : String) : Bool :=
  s.data.all (fun c => !(c = ',' || c = '"' || isLineBreak c))

/-- Usage message of the `__main__` block. -/
def USAGE : String := "Usage: python3 app.py <input_dir> <output_dir> \"en-US,pl-PL\""

/-- Outcome of the `__main__` block: exit code plus run result. -/
structure MainResult where
  exitCode : Nat
  result : RunResult
deriving DecidableEq

/-- The `__main__` block (lines 180-187): usage failure exits 1; otherwise
`run` executes and the process falls off the end of the script (exit 0). -/
def mainModel (argv : List String) (dir : Option (List DirEntry))
    (engine : OcrEngine) : MainResult :=
  if argv.length < 3 then
    { exitCode := 1, result := { artifacts := none, console := [USAGE] } }
  else
    { exitCode := 0
      result := run dir engine (argv.getD 2 "") (argv.getD 3 "en-US,pl-PL") }

instance : IsTotal TextRegion regionLe :=
  ⟨fun a b => le_total (regionKey a) (regionKey b)⟩

instance : IsTrans TextRegion regionLe :=
  ⟨fun _ _ _ h₁ h₂ => le_trans h₁ h₂⟩

instance : IsTotal String nameLe :=
  ⟨fun a b => le_total (nameSortKey a) (nameSortKey b)⟩

instance : IsTrans String nameLe :=
  ⟨fun _ _ _ h₁ h₂ => le_trans h₁ h₂⟩

end SignalOcr

/-! ## Theorems -/

namespace SignalOcr

/-- A stable sort by a key into a linear order does not depend on the input
order when the keys are pairwise distinct in the list. -/
theorem insertionSort_key_eq_of_perm {α κ : Type} [LinearOrder κ] (key : α → κ)
    (r : α → α → Prop) [DecidableRel r] (hr : ∀ a b, r a b ↔ key a ≤ key b)
    {l₁ l₂ : List α} (hp : l₁.Perm l₂) (hnd : (l₁.map key).Nodup) :
    List.insertionSort r l₁ = List.insertionSort r l₂ := by
  haveI : IsTotal α r :=
    ⟨fun a b => by
      rcases le_total (key a) (key b) with h | h
      · exact Or.inl ((hr a b).mpr h)
      · exact Or.inr ((hr b a).mpr h)⟩
  haveI : IsTrans α r :=
    ⟨fun a b c hab hbc =>
      (hr a c).mpr (le_trans ((hr a b).mp hab) ((hr b c).mp hbc))⟩
  have hperm : (List.insertionSort r l₁).Perm (List.insertionSort r l₂) :=
    (List.perm_insertionSort r l₁).trans (hp.trans (List.perm_insertionSort r l₂).symm)
  have hnd₁ : ((List.insertionSort r l₁).map key).Nodup :=
    (((List.perm_insertionSort r l₁).map key).nodup_iff).mpr hnd
  have hnd₂ : ((List.insertionSort r l₂).map key).Nodup :=
    ((hperm.map key).nodup_iff).mp hnd₁
  have hstrict : ∀ (s : List α), List.Sorted r s → (s.map key).Nodup →
      s.Pairwise (fun a b => key a < key b) := by
    intro s hs hn
    have h₁ : s.Pairwise (fun a b => key a ≤ key b) := hs.imp (fun h => (hr _ _).mp h)
    have h₂ : s.Pairwise (fun a b => key a ≠ key b) := List.pairwise_map.mp hn
    exact (h₁.and h₂).imp (fun h => lt_of_le_of_ne h.1 h.2)
  haveI : IsAntisymm α (fun a b => key a < key b) :=
    ⟨fun _ _ h₁ h₂ => absurd h₁ (lt_asymm h₂)⟩
  exact List.eq_of_perm_of_sorted hperm
    (hstrict _ (List.sorted_insertionSort r l₁) hnd₁)
    (hstrict _ (List.sorted_insertionSort r l₂) hnd₂)

/-- The lexicographic region comparison, spelled out the way the spec words
it: descending origin `y` first, ascending origin `x` on ties. -/
theorem regionLe_iff (a b : TextRegion) :
    regionLe a b ↔
      (b.boundingBox.y < a.boundingBox.y ∨
        (a.boundingBox.y = b.boundingBox.y ∧ a.boundingBox.x ≤ b.boundingBox.x)) := by
  unfold regionLe regionKey
  rw [Prod.Lex.le_iff]
  constructor
  · rintro (h | ⟨h₁, h₂⟩)
    · exact Or.inl (neg_lt_neg_iff.mp h)
    · exact Or.inr ⟨neg_inj.mp h₁, h₂⟩
  · rintro (h | ⟨h₁, h₂⟩)
    · exact Or.inl (neg_lt_neg_iff.mpr h)
    · exact Or.inr ⟨neg_inj.mpr h₁, h₂⟩

/-- C1 (amended): when the bounding-box origins give pairwise distinct sort
keys, the Reading-Order Reconstructor is order-independent — every
permutation of the region collection produces the same newline-joined text
block — and the block's regions are ordered by descending origin `y`, ties
by ascending origin `x`.  (With tied keys the stable sort preserves input
order, so full order-independence fails; see the counterexample.) -/
theorem reading_order_perm_invariant (rs rs' : List TextRegion)
    (hperm : rs.Perm rs') (hnd : (rs.map regionKey).Nodup) :
    readingOrderText rs' = readingOrderText rs ∧
    (sortRegions rs).Pairwise (fun a b =>
      b.boundingBox.y < a.boundingBox.y ∨
        (a.boundingBox.y = b.boundingBox.y ∧ a.boundingBox.x ≤ b.boundingBox.x)) := by
  constructor
  · have hsort : List.insertionSort regionLe rs' = List.insertionSort regionLe rs :=
      insertionSort_key_eq_of_perm regionKey regionLe (fun _ _ => Iff.rfl)
        hperm.symm (((hperm.map regionKey).nodup_iff).mp hnd)
    unfold readingOrderText sortRegions
    rw [hsort]
  · exact (List.sorted_insertionSort regionLe rs).imp
      (fun h => (regionLe_iff _ _).mp h)

/-- Witness for `reading_order_perm_invariant` at a concrete two-region
collection with distinct keys. -/
theorem reading_order_perm_invariant_witness :
    readingOrderText [⟨⟨0, 0, 1, 1⟩, "bottom"⟩, ⟨⟨0, 1, 1, 1⟩, "top"⟩] =
      readingOrderText [⟨⟨0, 1, 1, 1⟩, "top"⟩, ⟨⟨0, 0, 1, 1⟩, "bottom"⟩] ∧
    (sortRegions [⟨⟨0, 1, 1, 1⟩, "top"⟩, ⟨⟨0, 0, 1, 1⟩, "bottom"⟩]).Pairwise
      (fun a b =>
        b.boundingBox.y < a.boundingBox.y ∨
          (a.boundingBox.y = b.boundingBox.y ∧ a.boundingBox.x ≤ b.boundingBox.x)) :=
  reading_order_perm_invariant
    [⟨⟨0, 1, 1, 1⟩, "top"⟩, ⟨⟨0, 0, 1, 1⟩, "bottom"⟩]
    [⟨⟨0, 0, 1, 1⟩, "bottom"⟩, ⟨⟨0, 1, 1, 1⟩, "top"⟩]
    (by decide) (by decide)

/-- C1 counterexample: two regions with identical bounding-box origins but
different texts; swapping the input order changes the joined output, so the
Reconstructor is not order-independent as claimed. -/
theorem reading_order_counterexample :
    ([(⟨⟨0, 0, 1, 1⟩, "a"⟩ : TextRegion), ⟨⟨0, 0, 1, 1⟩, "b"⟩]).Perm
      [⟨⟨0, 0, 1, 1⟩, "b"⟩, ⟨⟨0, 0, 1, 1⟩, "a"⟩] ∧
    readingOrderText [⟨⟨0, 0, 1, 1⟩, "a"⟩, ⟨⟨0, 0, 1, 1⟩, "b"⟩] = "a\nb" ∧
    readingOrderText [⟨⟨0, 0, 1, 1⟩, "b"⟩, ⟨⟨0, 0, 1, 1⟩, "a"⟩] = "b\na" ∧
    ("a\nb" : String) ≠ "b\na" :=
  ⟨by decide, by decide, by decide, by decide⟩

/-- C6: Image Discovery returns exactly the eligible entries (regular file,
not hidden, supported extension case-insensitively), sorted by
case-insensitively compared filename, and returns the empty sequence for a
missing or non-directory path. -/
theorem list_images_discovery (es : List DirEntry) :
    (list_images (some es)).Perm ((es.filter eligibleImage).map DirEntry.name) ∧
    (list_images (some es)).Pairwise nameLe ∧
    (∀ x, x ∈ list_images (some es) ↔
      ∃ e ∈ es, eligibleImage e = true ∧ x = e.name) ∧
    list_images none = [] := by
  refine ⟨List.perm_insertionSort _ _, List.sorted_insertionSort _ _, ?_, rfl⟩
  intro x
  show x ∈ List.insertionSort nameLe ((es.filter eligibleImage).map DirEntry.name) ↔ _
  rw [(List.perm_insertionSort nameLe _).mem_iff]
  simp only [List.mem_map, List.mem_filter]
  constructor
  · rintro ⟨e, ⟨he, helig⟩, hx⟩
    exact ⟨e, he, helig, hx.symm⟩
  · rintro ⟨e, he, helig, hx⟩
    exact ⟨e, ⟨he, helig⟩, hx.symm⟩

/-- C9: with the positional arguments present and no eligible image (empty,
missing, or non-directory input), the process prints the "No images found."
message as its only output, writes no aggregate artifact, and exits 0. -/
theorem no_images_clean_exit (argv : List String) (dir : Option (List DirEntry))
    (engine : OcrEngine) (hargs : 3 ≤ argv.length) (hempty : list_images dir = []) :
    mainModel argv dir engine =
      { exitCode := 0,
        result := { artifacts := none, console := ["No images found."] } } := by
  unfold mainModel
  rw [if_neg (by omega)]
  unfold run
  rw [hempty]
  simp

/-- Witness for `no_images_clean_exit` on a missing input directory. -/
theorem no_images_clean_exit_witness :
    mainModel ["app.py", "indir", "outdir"] none (fun _ _ => none) =
      { exitCode := 0,
        result := { artifacts := none, console := ["No images found."] } } :=
  no_images_clean_exit ["app.py", "indir", "outdir"] none (fun _ _ => none)
    (by decide) rfl

/-- C8 (amended): the pipeline is a function of the enumerated directory
listing, and its outputs are unchanged under re-enumeration of the same
directory provided no two eligible filenames coincide case-insensitively:
images are processed in case-insensitive filename order, which is then
unique.  (With case-insensitively equal names the stable sort falls back to
enumeration order; see the counterexample.) -/
theorem run_perm_invariant (es₁ es₂ : List DirEntry) (engine : OcrEngine)
    (outDir langStr : String) (hperm : es₁.Perm es₂)
    (hnd : (((es₁.filter eligibleImage).map DirEntry.name).map nameSortKey).Nodup) :
    run (some es₂) engine outDir langStr = run (some es₁) engine outDir langStr ∧
    (list_images (some es₁)).Pairwise nameLe := by
  have hp : ((es₂.filter eligibleImage).map DirEntry.name).Perm
      ((es₁.filter eligibleImage).map DirEntry.name) :=
    (hperm.symm.filter eligibleImage).map DirEntry.name
  have himg : list_images (some es₂) = list_images (some es₁) := by
    unfold list_images
    exact insertionSort_key_eq_of_perm nameSortKey nameLe (fun _ _ => Iff.rfl)
      hp (((hp.map nameSortKey).nodup_iff).mpr hnd)
  exact ⟨by unfold run; rw [himg], List.sorted_insertionSort _ _⟩

/-- Witness for `run_perm_invariant` at a two-file directory enumerated in
both orders. -/
theorem run_perm_invariant_witness :
    run (some [⟨"b.png", true⟩, ⟨"A.png", true⟩]) (fun _ _ => some []) "out" "" =
      run (some [⟨"A.png", true⟩, ⟨"b.png", true⟩]) (fun _ _ => some []) "out" "" ∧
    (list_images (some [⟨"A.png", true⟩, ⟨"b.png", true⟩])).Pairwise nameLe :=
  run_perm_invariant [⟨"A.png", true⟩, ⟨"b.png", true⟩] [⟨"b.png", true⟩, ⟨"A.png", true⟩]
    (fun _ _ => some []) "out" "" (by decide) (by decide)

set_option maxRecDepth 40000 in
/-- C8 counterexample: a directory holding `A.png` and `a.png` (equal under
case-insensitive comparison).  The two names tie on the sort key, the stable
sort falls back to enumeration order, and the two enumeration orders of the
same directory produce different `all_text.md` bytes. -/
theorem run_rerun_counterexample :
    ([(⟨"A.png", true⟩ : DirEntry), ⟨"a.png", true⟩]).Perm
      [⟨"a.png", true⟩, ⟨"A.png", true⟩] ∧
    run (some [⟨"A.png", true⟩, ⟨"a.png", true⟩]) (fun _ _ => some []) "out" "" ≠
      run (some [⟨"a.png", true⟩, ⟨"A.png", true⟩]) (fun _ _ => some []) "out" "" :=
  ⟨by decide, by decide⟩

/-- C7 (amended): an OCR failure on one image does not abort the batch: the
run equals the run in which that image yields zero regions, all three
`txt/` files are written with the failing image's empty, and its section
holds an empty fenced block with no links list — but since images are
processed in case-insensitive sorted order, `corrupt.png` sorts before
`good1.png` and its section comes first, not in the middle. -/
theorem ocr_failure_batch (engine : OcrEngine) (outDir langStr : String)
    (hc : engine "corrupt.png" (parseLangs langStr) = none) :
    run (some [⟨"good1.png", true⟩, ⟨"corrupt.png", true⟩, ⟨"good2.png", true⟩])
        engine outDir langStr =
      run (some [⟨"good1.png", true⟩, ⟨"corrupt.png", true⟩, ⟨"good2.png", true⟩])
        (fun p langs => if p = "corrupt.png" then some [] else engine p langs)
        outDir langStr ∧
    (run (some [⟨"good1.png", true⟩, ⟨"corrupt.png", true⟩, ⟨"good2.png", true⟩])
        engine outDir langStr).artifacts.map Artifacts.txtFiles =
      some [("corrupt", ""),
        ("good1", ocr_with_vision engine "good1.png" (parseLangs langStr)),
        ("good2", ocr_with_vision engine "good2.png" (parseLangs langStr))] ∧
    (run (some [⟨"good1.png", true⟩, ⟨"corrupt.png", true⟩, ⟨"good2.png", true⟩])
        engine outDir langStr).artifacts.map Artifacts.allTextMd =
      some (combinedMd ["## corrupt\n\n```\n\n```\n",
        sectionOf ⟨"good1", ocr_with_vision engine "good1.png" (parseLangs langStr),
          extract_urls (ocr_with_vision engine "good1.png" (parseLangs langStr))⟩,
        sectionOf ⟨"good2", ocr_with_vision engine "good2.png" (parseLangs langStr),
          extract_urls (ocr_with_vision engine "good2.png" (parseLangs langStr))⟩]) := by
  have himgs : list_images
      (some [⟨"good1.png", true⟩, ⟨"corrupt.png", true⟩, ⟨"good2.png", true⟩]) =
      ["corrupt.png", "good1.png", "good2.png"] := by decide
  have hzero : ocr_with_vision engine "corrupt.png" (parseLangs langStr) = "" := by
    unfold ocr_with_vision
    rw [hc]
  refine ⟨?_, ?_, ?_⟩
  · have hro : readingOrderText [] = "" := rfl
    unfold run
    rw [himgs]
    simp [imageResults, ocr_with_vision, hc, hro]
  · unfold run
    rw [himgs]
    simp [imageResults, hzero,
      (by decide : (pySplitext "corrupt.png").1 = "corrupt"),
      (by decide : (pySplitext "good1.png").1 = "good1"),
      (by decide : (pySplitext "good2.png").1 = "good2")]
  · unfold run
    rw [himgs]
    simp [imageResults, hzero,
      (by decide : (pySplitext "corrupt.png").1 = "corrupt"),
      (by decide : (pySplitext "good1.png").1 = "good1"),
      (by decide : (pySplitext "good2.png").1 = "good2"),
      (by decide : sectionOf ⟨"corrupt", "", extract_urls ""⟩ =
        "## corrupt\n\n```\n\n```\n")]

/-- Witness for `ocr_failure_batch` with a concrete engine failing on
`corrupt.png`. -/
theorem ocr_failure_batch_witness :
    run (some [⟨"good1.png", true⟩, ⟨"corrupt.png", true⟩, ⟨"good2.png", true⟩])
        (fun p _ => if p = "corrupt.png" then none
          else some [⟨⟨0, 1, 1, 1⟩, "hello"⟩]) "out" "" =
      run (some [⟨"good1.png", true⟩, ⟨"corrupt.png", true⟩, ⟨"good2.png", true⟩])
        (fun p langs => if p = "corrupt.png" then some []
          else (fun p _ => if p = "corrupt.png" then none
            else some [⟨⟨0, 1, 1, 1⟩, "hello"⟩] : OcrEngine) p langs) "out" "" ∧
    (run (some [⟨"good1.png", true⟩, ⟨"corrupt.png", true⟩, ⟨"good2.png", true⟩])
        (fun p _ => if p = "corrupt.png" then none
          else some [⟨⟨0, 1, 1, 1⟩, "hello"⟩]) "out" "").artifacts.map Artifacts.txtFiles =
      some [("corrupt", ""),
        ("good1", ocr_with_vision (fun p _ => if p = "corrupt.png" then none
          else some [⟨⟨0, 1, 1, 1⟩, "hello"⟩]) "good1.png" (parseLangs "")),
        ("good2", ocr_with_vision (fun p _ => if p = "corrupt.png" then none
          else some [⟨⟨0, 1, 1, 1⟩, "hello"⟩]) "good2.png" (parseLangs ""))] ∧
    (run (some [⟨"good1.png", true⟩, ⟨"corrupt.png", true⟩, ⟨"good2.png", true⟩])
        (fun p _ => if p = "corrupt.png" then none
          else some [⟨⟨0, 1, 1, 1⟩, "hello"⟩]) "out" "").artifacts.map Artifacts.allTextMd =
      some (combinedMd ["## corrupt\n\n```\n\n```\n",
        sectionOf ⟨"good1", ocr_with_vision (fun p _ => if p = "corrupt.png" then none
            else some [⟨⟨0, 1, 1, 1⟩, "hello"⟩]) "good1.png" (parseLangs ""),
          extract_urls (ocr_with_vision (fun p _ => if p = "corrupt.png" then none
            else some [⟨⟨0, 1, 1, 1⟩, "hello"⟩]) "good1.png" (parseLangs ""))⟩,
        sectionOf ⟨"good2", ocr_with_vision (fun p _ => if p = "corrupt.png" then none
            else some [⟨⟨0, 1, 1, 1⟩, "hello"⟩]) "good2.png" (parseLangs ""),
          extract_urls (ocr_with_vision (fun p _ => if p = "corrupt.png" then none
            else some [⟨⟨0, 1, 1, 1⟩, "hello"⟩]) "good2.png" (parseLangs ""))⟩]) :=
  ocr_failure_batch
    (fun p _ => if p = "corrupt.png" then none else some [⟨⟨0, 1, 1, 1⟩, "hello"⟩])
    "out" "" (by decide)

set_option maxRecDepth 40000 in
/-- C7 counterexample: with images `good1.png`, `corrupt.png`, `good2.png`
and `corrupt.png` failing, the sections of `all_text.md` put the failing
image's (empty-fenced) section first — `corrupt.png` sorts before
`good1.png` — so the middle section is `good1`'s non-empty one, not the
empty fenced block the claim places there. -/
theorem ocr_failure_counterexample :
    ((imageResults (fun name _ =>
        if name = "corrupt.png" then none
        else if name = "good1.png" then some [⟨⟨0, 1, 1, 1⟩, "hello"⟩]
        else some [⟨⟨0, 1, 1, 1⟩, "world"⟩]) ["en-US", "pl-PL"]
      (list_images (some [⟨"good1.png", true⟩, ⟨"corrupt.png", true⟩,
        ⟨"good2.png", true⟩]))).map sectionOf =
      ["## corrupt\n\n```\n\n```\n", "## good1\n\n```\nhello\n```\n",
        "## good2\n\n```\nworld\n```\n"]) ∧
    (["## corrupt\n\n```\n\n```\n", "## good1\n\n```\nhello\n```\n",
        "## good2\n\n```\nworld\n```\n"].get? 1 ≠ some "## corrupt\n\n```\n\n```\n") :=
  ⟨by decide, by decide⟩

/-- A character that is no line boundary accumulates onto the current
line. -/
theorem splitLinesAux_not_break (b : Bool) (acc : List Char) {c : Char}
    (tl : List Char) (h : isLineBreak c = false) :
    splitLinesAux b acc (c :: tl) = splitLinesAux false (c :: acc) tl := by
  have hn : c ≠ '\n' := fun hc => by subst hc; simp [isLineBreak] at h
  have hr : c ≠ '\r' := fun hc => by subst hc; simp [isLineBreak] at h
  simp [splitLinesAux, hn, hr, h]

/-- A `'\n'` outside a `"\r\n"` pair ends the current line. -/
theorem splitLinesAux_nl (acc tl : List Char) :
    splitLinesAux false acc ('\n' :: tl) = acc.reverse :: splitLinesAux false [] tl := by
  simp [splitLinesAux, isLineBreak]

/-- A `"\r\n"` pair ends the current line once. -/
theorem splitLinesAux_crnl (acc tl : List Char) :
    splitLinesAux false acc ('\r' :: '\n' :: tl) =
      acc.reverse :: splitLinesAux false [] tl := by
  simp [splitLinesAux]

/-- Splitting walks over a boundary-free block by accumulating it. -/
theorem splitLinesAux_accum (l : List Char) :
    ∀ (acc rest : List Char), (∀ c ∈ l, isLineBreak c = false) →
      splitLinesAux false acc (l ++ rest) = splitLinesAux false (l.reverse ++ acc) rest := by
  induction l with
  | nil => intro acc rest _; simp
  | cons c tl ih =>
    intro acc rest h
    rw [List.cons_append, splitLinesAux_not_break false acc _ (h c (by simp))]
    rw [ih (c :: acc) rest (fun d hd => h d (by simp [hd]))]
    simp

/-- Splitting a boundary-free block terminated by `"\r\n"` yields that block
as one line. -/
theorem splitLinesAux_crlf_row (l rest : List Char)
    (h : ∀ c ∈ l, isLineBreak c = false) :
    splitLinesAux false [] (l ++ '\r' :: '\n' :: rest) =
      l :: splitLinesAux false [] rest := by
  rw [splitLinesAux_accum l [] ('\r' :: '\n' :: rest) h, List.append_nil,
    splitLinesAux_crnl, List.reverse_reverse]

/-- The deduplication fold appends the same (sublist) tail to any two
accumulators that agree on membership of the processed elements. -/
theorem dedup_foldl_congr (l : List String) :
    ∀ (p q : List String), (∀ v ∈ l, (v ∈ p ↔ v ∈ q)) →
      ∃ d, List.foldl (fun acc u => if u ∈ acc then acc else acc ++ [u]) p l = p ++ d ∧
        List.foldl (fun acc u => if u ∈ acc then acc else acc ++ [u]) q l = q ++ d ∧
        d.Sublist l := by
  induction l with
  | nil => intro p q _; exact ⟨[], by simp, by simp, List.nil_sublist _⟩
  | cons u tl ih =>
    intro p q h
    by_cases hu : u ∈ p
    · have hq : u ∈ q := (h u (by simp)).mp hu
      simp only [List.foldl_cons, if_pos hu, if_pos hq]
      obtain ⟨d, h₁, h₂, h₃⟩ := ih p q (fun v hv => h v (List.mem_cons_of_mem _ hv))
      exact ⟨d, h₁, h₂, h₃.cons u⟩
    · have hq : u ∉ q := fun hc => hu ((h u (by simp)).mpr hc)
      simp only [List.foldl_cons, if_neg hu, if_neg hq]
      obtain ⟨d, h₁, h₂, h₃⟩ := ih (p ++ [u]) (q ++ [u]) (fun v hv => by
        simp only [List.mem_append, List.mem_singleton]
        exact or_congr (h v (List.mem_cons_of_mem _ hv)) Iff.rfl)
      refine ⟨u :: d, ?_, ?_, h₃.cons₂ u⟩
      · rw [h₁, List.append_assoc]; rfl
      · rw [h₂, List.append_assoc]; rfl

/-- The deduplication fold collects exactly the accumulator and the
processed elements. -/
theorem dedup_foldl_mem (l : List String) :
    ∀ (acc : List String) (x : String),
      x ∈ List.foldl (fun acc u => if u ∈ acc then acc else acc ++ [u]) acc l ↔
        x ∈ acc ∨ x ∈ l := by
  induction l with
  | nil => simp
  | cons u tl ih =>
    intro acc x
    by_cases hu : u ∈ acc
    · simp only [List.foldl_cons, if_pos hu, ih, List.mem_cons]
      constructor
      · rintro (hx | hx)
        · exact Or.inl hx
        · exact Or.inr (Or.inr hx)
      · rintro (hx | hx | hx)
        · exact Or.inl hx
        · exact Or.inl (hx ▸ hu)
        · exact Or.inr hx
    · simp only [List.foldl_cons, if_neg hu, ih, List.mem_append,
        List.mem_singleton, List.mem_cons]
      tauto

/-- The deduplication fold preserves freedom from duplicates. -/
theorem dedup_foldl_nodup (l : List String) :
    ∀ (acc : List String), acc.Nodup →
      (List.foldl (fun acc u => if u ∈ acc then acc else acc ++ [u]) acc l).Nodup := by
  induction l with
  | nil => intro acc h; simpa using h
  | cons u tl ih =>
    intro acc h
    by_cases hu : u ∈ acc
    · rw [List.foldl_cons, if_pos hu]
      exact ih acc h
    · rw [List.foldl_cons, if_neg hu]
      refine ih (acc ++ [u]) ?_
      simp [List.nodup_append, h, hu]

/-- Occurrences of an element already recorded are skipped, so filtering
them out first changes nothing. -/
theorem dedup_foldl_skip (l : List String) :
    ∀ (acc : List String) (u : String), u ∈ acc →
      List.foldl (fun acc u => if u ∈ acc then acc else acc ++ [u]) acc l =
        List.foldl (fun acc u => if u ∈ acc then acc else acc ++ [u]) acc
          (l.filter (fun v => v ≠ u)) := by
  induction l with
  | nil => simp
  | cons v tl ih =>
    intro acc u hu
    by_cases hv : v = u
    · subst hv
      rw [List.foldl_cons, if_pos hu]
      rw [show (v :: tl).filter (fun w => decide (w ≠ v)) = tl.filter (fun w => decide (w ≠ v)) by
        simp [List.filter_cons]]
      exact ih acc v hu
    · rw [show (v :: tl).filter (fun w => decide (w ≠ u)) =
        v :: tl.filter (fun w => decide (w ≠ u)) by simp [List.filter_cons, hv]]
      rw [List.foldl_cons, List.foldl_cons]
      by_cases hva : v ∈ acc
      · rw [if_pos hva]
        exact ih acc u hu
      · rw [if_neg hva]
        exact ih (acc ++ [v]) u (List.mem_append_left _ hu)

/-- First-seen recursion of the deduplicated list: the head is kept and all
its later occurrences are dropped. -/
theorem dedupUrls_first_seen (u : String) (rest : List String) :
    dedupUrls (u :: rest) = u :: dedupUrls (rest.filter (fun v => v ≠ u)) := by
  unfold dedupUrls
  rw [List.foldl_cons]
  rw [if_neg (List.not_mem_nil u)]
  rw [dedup_foldl_skip rest ([] ++ [u]) u (by simp)]
  obtain ⟨d, h₁, h₂, _⟩ := dedup_foldl_congr (rest.filter (fun v => v ≠ u)) ([] ++ [u]) []
    (fun v hv => by
      have : v ≠ u := by
        have := List.of_mem_filter hv
        simpa using this
      simp [this])
  rw [h₁, h₂]
  rfl

/-- A character admissible in a plain csv field is none of the characters
that force quoting. -/
theorem char_plain_no_quote (c : Char)
    (h : (!(c = ',' || c = '"' || isLineBreak c)) = true) :
    ((c = ',' : Bool) || c = '"' || c = '\r' || c = '\n') = false := by
  have h1 : decide (c = ',') = false := by
    cases hd : decide (c = ',') with
    | false => rfl
    | true => rw [hd] at h; simp at h
  have h2 : decide (c = '"') = false := by
    cases hd : decide (c = '"') with
    | false => rfl
    | true => rw [hd] at h; simp at h
  have h3 : isLineBreak c = false := by
    cases hd : isLineBreak c with
    | false => rfl
    | true => rw [hd] at h; simp at h
  have hr : decide (c = '\r') = false := by
    cases hd : decide (c = '\r') with
    | false => rfl
    | true =>
      have hrc : c = '\r' := of_decide_eq_true hd
      subst hrc
      exact absurd h3 (by decide)
  have hn : decide (c = '\n') = false := by
    cases hd : decide (c = '\n') with
    | false => rfl
    | true =>
      have hnc : c = '\n' := of_decide_eq_true hd
      subst hnc
      exact absurd h3 (by decide)
  show (decide (c = ',') || decide (c = '"') || decide (c = '\r') ||
    decide (c = '\n')) = false
  rw [h1, h2, hr, hn]
  rfl

/-- A character admissible in a plain csv field is no line boundary. -/
theorem char_plain_not_break (c : Char)
    (h : (!(c = ',' || c = '"' || isLineBreak c)) = true) :
    isLineBreak c = false := by
  cases hd : isLineBreak c with
  | false => rfl
  | true => rw [hd] at h; simp at h

/-- Fields with no separator, quote, or line-boundary characters are written
unquoted. -/
theorem csvField_plain (s : String) (h : csvPlain s = true) : csvField s = s := by
  unfold csvField
  rw [if_neg ?hq]
  case hq =>
    unfold csvPlain at h
    rw [List.all_eq_true] at h
    unfold csvNeedsQuote
    intro hq
    rw [List.any_eq_true] at hq
    obtain ⟨c, hc, hcq⟩ := hq
    rw [char_plain_no_quote c (h c hc)] at hcq
    exact Bool.false_ne_true hcq

/-- One plain csv row followed by further content splits into its line. -/
theorem csvRow_split (f u : String) (rest : List Char)
    (hf : csvPlain f = true) (hu : csvPlain u = true) :
    splitLinesAux false [] ((csvRow f u).data ++ rest) =
      (f ++ "," ++ u).data :: splitLinesAux false [] rest := by
  have hf2 := hf
  have hu2 := hu
  unfold csvPlain at hf2 hu2
  rw [List.all_eq_true] at hf2 hu2
  have hplain : ∀ c ∈ (f ++ "," ++ u).data, isLineBreak c = false := by
    simp only [String.data_append, List.mem_append]
    rintro c ((hc | hc) | hc)
    · exact char_plain_not_break c (hf2 c hc)
    · have hcc : c = ',' := by simpa using hc
      subst hcc; decide
    · exact char_plain_not_break c (hu2 c hc)
  have hdata : (csvRow f u).data ++ rest = (f ++ "," ++ u).data ++ '\r' :: '\n' :: rest := by
    unfold csvRow
    rw [csvField_plain f hf, csvField_plain u hu]
    simp [String.data_append, List.append_assoc]
  rw [hdata, splitLinesAux_crlf_row _ _ hplain]

/-- The csv mapping splits into its header line followed by one
`file,url` line per occurrence, in processing order. -/
theorem csv_rows_lines (occ : List (String × String))
    (h : ∀ p ∈ occ, csvPlain p.1 = true ∧ csvPlain p.2 = true) :
    pySplitLines (urlsCsvContent occ) =
      "file,url" :: occ.map (fun p => p.1 ++ "," ++ p.2) := by
  have hjoin : ∀ (l : List (String × String)), (∀ p ∈ l, csvPlain p.1 = true ∧ csvPlain p.2 = true) →
      splitLinesAux false [] (String.join (l.map (fun p => csvRow p.1 p.2))).data =
        l.map (fun p => (p.1 ++ "," ++ p.2).data) := by
    intro l
    induction l with
    | nil => intro _; rfl
    | cons p tl ih =>
      intro hl
      have hdata : (String.join ((p :: tl).map (fun q => csvRow q.1 q.2))).data =
          (csvRow p.1 p.2).data ++ (String.join (tl.map (fun q => csvRow q.1 q.2))).data := by
        simp [String.data_join]
      rw [List.map_cons]
      rw [show String.join (csvRow p.1 p.2 :: tl.map (fun q => csvRow q.1 q.2)) =
        String.mk ((csvRow p.1 p.2).data ++
          (String.join (tl.map (fun q => csvRow q.1 q.2))).data) from String.ext (by
            rw [show (String.mk ((csvRow p.1 p.2).data ++
                (String.join (tl.map (fun q => csvRow q.1 q.2))).data)).data =
              (csvRow p.1 p.2).data ++
                (String.join (tl.map (fun q => csvRow q.1 q.2))).data from rfl]
            exact hdata)]
      show splitLinesAux false [] ((csvRow p.1 p.2).data ++ _) = _
      rw [csvRow_split p.1 p.2 _ (hl p (by simp)).1 (hl p (by simp)).2]
      rw [ih (fun q hq => hl q (by simp [hq]))]
      rfl
  unfold pySplitLines urlsCsvContent
  rw [show (csvRow "file" "url" ++
      String.join (occ.map (fun p => csvRow p.1 p.2))).data =
    (csvRow "file" "url").data ++
      (String.join (occ.map (fun p => csvRow p.1 p.2))).data from String.data_append _ _]
  rw [csvRow_split "file" "url" _ (by decide) (by decide)]
  rw [hjoin occ h]
  rw [List.map_cons, List.map_map]
  congr 1

/-- Unfolding of `List.intercalate` on a two-or-more element list. -/
theorem intercalate_cons₂ {α : Type} (sep x y : List α) (L : List (List α)) :
    List.intercalate sep (x :: y :: L) = x ++ sep ++ List.intercalate sep (y :: L) := by
  simp [List.intercalate, List.intersperse_cons_cons, List.append_assoc]

/-- `List.intercalate` on a singleton. -/
theorem intercalate_one {α : Type} (sep x : List α) :
    List.intercalate sep [x] = x := by
  simp [List.intercalate]

/-- Unfolding of `List.intercalate` on a non-empty tail. -/
theorem intercalate_cons_ne {α : Type} (sep x : List α) (L : List (List α))
    (h : L ≠ []) :
    List.intercalate sep (x :: L) = x ++ sep ++ List.intercalate sep L := by
  cases L with
  | nil => exact absurd rfl h
  | cons y L' => exact intercalate_cons₂ sep x y L'

/-- `List.intercalate` over an appended singleton. -/
theorem intercalate_append_one {α : Type} (sep : List α) (L : List (List α)) (x : List α)
    (h : L ≠ []) :
    List.intercalate sep (L ++ [x]) = List.intercalate sep L ++ sep ++ x := by
  induction L with
  | nil => exact absurd rfl h
  | cons y L' ih =>
    cases L' with
    | nil =>
      rw [List.cons_append, List.nil_append, intercalate_cons₂ sep y x [],
        intercalate_one, intercalate_one]
    | cons z L'' =>
      rw [List.cons_append,
        intercalate_cons_ne sep y ((z :: L'') ++ [x]) (by simp),
        intercalate_cons_ne sep y (z :: L'') (by simp),
        ih (by simp)]
      simp [List.append_assoc]

/-- `String.intercalate` computes `List.intercalate` on the underlying
character lists. -/
theorem intercalate_mk (sep : List Char) (l : List (List Char)) :
    String.intercalate (String.mk sep) (l.map String.mk) =
      String.mk (List.intercalate sep l) := by
  cases l with
  | nil => rfl
  | cons a rest =>
    show String.intercalate.go (String.mk a) (String.mk sep) (rest.map String.mk) = _
    induction rest generalizing a with
    | nil => rw [intercalate_one]; rfl
    | cons b tl ih =>
      rw [List.map_cons]
      show String.intercalate.go (String.mk a ++ String.mk sep ++ String.mk b)
        (String.mk sep) (tl.map String.mk) = _
      rw [show String.mk a ++ String.mk sep ++ String.mk b =
        String.mk (a ++ sep ++ b) from String.ext (by simp [String.data_append])]
      rw [ih (a ++ sep ++ b)]
      congr 1
      cases tl with
      | nil =>
        rw [intercalate_one, intercalate_cons₂ sep a b [], intercalate_one]
      | cons c tl' =>
        rw [intercalate_cons_ne sep (a ++ sep ++ b) (c :: tl') (by simp),
          intercalate_cons₂ sep a b (c :: tl'),
          intercalate_cons_ne sep b (c :: tl') (by simp)]
        simp [List.append_assoc]

/-- `splitNlAux` never returns the empty list of segments. -/
theorem splitNlAux_ne_nil (t : List Char) : ∀ acc, splitNlAux acc t ≠ [] := by
  induction t with
  | nil => intro acc; simp [splitNlAux]
  | cons c tl ih =>
    intro acc
    unfold splitNlAux
    by_cases hc : c = '\n'
    · rw [if_pos hc]; simp
    · rw [if_neg hc]; exact ih (c :: acc)

/-- Joining the `'\n'`-split segments with `'\n'` restores the text. -/
theorem intercalate_splitNlAux (t : List Char) :
    ∀ acc, List.intercalate ['\n'] (splitNlAux acc t) = acc.reverse ++ t := by
  induction t with
  | nil => intro acc; rw [show splitNlAux acc [] = [acc.reverse] from rfl,
      intercalate_one, List.append_nil]
  | cons c tl ih =>
    intro acc
    unfold splitNlAux
    by_cases hc : c = '\n'
    · rw [if_pos hc]
      rw [intercalate_cons_ne _ _ _ (splitNlAux_ne_nil tl [])]
      rw [ih []]
      subst hc
      simp
    · rw [if_neg hc, ih (c :: acc)]
      simp

/-- Every character of a `'\n'`-split segment of text whose only line
boundary is `'\n'` is boundary-free. -/
theorem splitNlAux_no_break (t : List Char)
    (ht : ∀ c ∈ t, isLineBreak c = true → c = '\n') :
    ∀ acc, (∀ c ∈ acc, isLineBreak c = false) →
      ∀ seg ∈ splitNlAux acc t, ∀ c ∈ seg, isLineBreak c = false := by
  induction t with
  | nil =>
    intro acc hacc seg hseg
    rw [show splitNlAux acc [] = [acc.reverse] from rfl] at hseg
    simp only [List.mem_singleton] at hseg
    subst hseg
    intro c hc
    exact hacc c (by simpa using hc)
  | cons d tl ih =>
    intro acc hacc seg hseg
    have htl : ∀ c ∈ tl, isLineBreak c = true → c = '\n' :=
      fun c hc => ht c (by simp [hc])
    unfold splitNlAux at hseg
    by_cases hd : d = '\n'
    · rw [if_pos hd] at hseg
      rcases List.mem_cons.mp hseg with h | h
      · subst h
        intro c hc
        exact hacc c (by simpa using hc)
      · exact ih htl [] (by simp) seg h
    · rw [if_neg hd] at hseg
      refine ih htl (d :: acc) ?_ seg hseg
      intro c hc
      rcases List.mem_cons.mp hc with h | h
      · subst h
        cases hb : isLineBreak c with
        | false => rfl
        | true => exact absurd (ht c (by simp) hb) hd
      · exact hacc c h

/-- Splitting a text laid out as `'\n'`-joined boundary-free segments plus a
final `'\n'` recovers exactly those segments. -/
theorem splitLinesAux_intercalate (ls : List (List Char)) (hne : ls ≠ [])
    (h : ∀ l ∈ ls, ∀ c ∈ l, isLineBreak c = false) :
    splitLinesAux false [] (List.intercalate ['\n'] ls ++ ['\n']) = ls := by
  induction ls with
  | nil => exact absurd rfl hne
  | cons x L ih =>
    cases hL : L with
    | nil =>
      subst hL
      rw [intercalate_one]
      rw [splitLinesAux_accum x [] ['\n'] (h x (by simp))]
      rw [List.append_nil, splitLinesAux_nl, List.reverse_reverse]
      rfl
    | cons y L' =>
      rw [← hL]
      rw [intercalate_cons_ne ['\n'] x L (by simp [hL])]
      rw [List.append_assoc, List.append_assoc]
      rw [splitLinesAux_accum x [] _ (h x (by simp))]
      rw [List.append_nil]
      rw [show (['\n'] : List Char) ++ (List.intercalate ['\n'] L ++ ['\n']) =
        '\n' :: (List.intercalate ['\n'] L ++ ['\n']) from rfl]
      rw [splitLinesAux_nl, List.reverse_reverse]
      rw [ih (by simp [hL]) (fun l hl => h l (by simp [hl]))]

/-- `List.intercalate` distributes over appending two non-empty lists of
segments. -/
theorem intercalate_append_ne {α : Type} (sep : List α) (A B : List (List α))
    (hA : A ≠ []) (hB : B ≠ []) :
    List.intercalate sep (A ++ B) =
      List.intercalate sep A ++ sep ++ List.intercalate sep B := by
  induction A with
  | nil => exact absurd rfl hA
  | cons x A' ih =>
    cases A' with
    | nil =>
      rw [List.cons_append, List.nil_append, intercalate_one,
        intercalate_cons_ne sep x B hB]
    | cons y A'' =>
      rw [List.cons_append,
        intercalate_cons_ne sep x ((y :: A'') ++ B) (by simp),
        intercalate_cons_ne sep x (y :: A'') (by simp),
        ih (by simp)]
      simp [List.append_assoc]

/-- Mapping to character data turns `String.intercalate` into
`List.intercalate`. -/
theorem data_intercalate (s : String) (l : List String) :
    (String.intercalate s l).data = List.intercalate s.data (l.map String.data) := by
  have h1 : (l.map String.data).map String.mk = l := by
    rw [List.map_map]
    have : ∀ x ∈ l, (String.mk ∘ String.data) x = id x := fun x _ => rfl
    rw [List.map_congr_left this, List.map_id]
  have h2 := intercalate_mk s.data (l.map String.data)
  rw [show String.mk s.data = s from rfl, h1] at h2
  rw [h2]

/-- String-level unfolding of `String.intercalate` on two or more
strings. -/
theorem sintercalate_cons₂ (s x y : String) (L : List String) :
    String.intercalate s (x :: y :: L) = x ++ s ++ String.intercalate s (y :: L) :=
  String.ext (by
    simp only [data_intercalate, List.map_cons, String.data_append]
    rw [intercalate_cons₂])

/-- String-level unfolding of `String.intercalate` on a non-empty tail. -/
theorem sintercalate_cons_ne (s x : String) (L : List String) (h : L ≠ []) :
    String.intercalate s (x :: L) = x ++ s ++ String.intercalate s L := by
  cases L with
  | nil => exact absurd rfl h
  | cons y L' => exact sintercalate_cons₂ s x y L'

/-- String-level distribution of `String.intercalate` over append. -/
theorem sintercalate_append_ne (s : String) (A B : List String)
    (hA : A ≠ []) (hB : B ≠ []) :
    String.intercalate s (A ++ B) =
      String.intercalate s A ++ s ++ String.intercalate s B :=
  String.ext (by
    simp only [data_intercalate, List.map_append, String.data_append]
    rw [intercalate_append_ne _ _ _ (by simpa using hA) (by simpa using hB)])

/-- The character data of the `'\n'`-split lines of a text. -/
theorem textLines_data (t : String) :
    (textLines t).map String.data = splitNlAux [] t.data := by
  unfold textLines
  rw [List.map_map]
  have : ∀ x ∈ splitNlAux [] t.data, (String.data ∘ String.mk) x = id x :=
    fun x _ => rfl
  rw [List.map_congr_left this, List.map_id]

/-- The `'\n'`-split lines of a text are never the empty list. -/
theorem textLines_ne_nil (t : String) : textLines t ≠ [] := by
  unfold textLines
  intro h
  exact splitNlAux_ne_nil t.data [] (by simpa using h)

/-- Joining the lines of a text with `'\n'` restores the text. -/
theorem sintercalate_textLines (t : String) :
    String.intercalate "\n" (textLines t) = t :=
  String.ext (by
    rw [data_intercalate, textLines_data]
    rw [show ("\n" : String).data = ['\n'] from rfl]
    rw [intercalate_splitNlAux t.data []]
    rfl)

/-- A markdown heading line survives the plain-text filter. -/
theorem keepPlainLine_heading (b : String) : keepPlainLine ("## " ++ b) = true := by
  unfold keepPlainLine pyStartsWith
  rw [show ("## " ++ b).data = '#' :: '#' :: ' ' :: b.data from by
    rw [String.data_append]; rfl]
  rfl

/-- A bullet line survives the plain-text filter. -/
theorem keepPlainLine_bullet (u : String) : keepPlainLine ("- " ++ u) = true := by
  unfold keepPlainLine pyStartsWith
  rw [show ("- " ++ u).data = '-' :: ' ' :: u.data from by
    rw [String.data_append]; rfl]
  rfl

/-- Under the amended hypotheses, the code's plain-text block of a section
is exactly the markdown section with the fence and label lines removed. -/
theorem plainBlock_sectionOf (r : ImageResult)
    (hb : ∀ c ∈ r.base.data, isLineBreak c = false)
    (ht : ∀ c ∈ r.text.data, isLineBreak c = true → c = '\n')
    (hl : ∀ ln ∈ textLines r.text, keepPlainLine ln = true)
    (hu : ∀ u ∈ r.urls, ∀ c ∈ u.data, isLineBreak c = false)
    (hs : pyStrip (claimedPlainSection r) = claimedPlainSection r) :
    plainBlock (sectionOf r) = claimedPlainSection r := by
  have hT : List.intercalate ['\n'] (splitNlAux [] r.text.data) = r.text.data :=
    intercalate_splitNlAux r.text.data []
  have hTne : splitNlAux [] r.text.data ≠ [] := splitNlAux_ne_nil r.text.data []
  have hTfree : ∀ seg ∈ splitNlAux [] r.text.data, ∀ c ∈ seg, isLineBreak c = false :=
    splitNlAux_no_break r.text.data ht [] (by simp)
  have hTLne : textLines r.text ≠ [] := textLines_ne_nil r.text
  have e0 : ("## " : String).data = ['#', '#', ' '] := rfl
  have e2 : ("\n\n```\n" : String).data = ['\n', '\n', '`', '`', '`', '\n'] := rfl
  have e3 : ("\n```\n" : String).data = ['\n', '`', '`', '`', '\n'] := rfl
  have e4 : ("```" : String).data = ['`', '`', '`'] := rfl
  have e5 : ("" : String).data = ([] : List Char) := rfl
  have e6 : ("\n" : String).data = ['\n'] := rfl
  by_cases hurls : r.urls = []
  · -- no links list
    have hsec : sectionOf r = "## " ++ r.base ++ "\n\n```\n" ++ r.text ++ "\n```\n" := by
      unfold sectionOf
      rw [if_neg (by simp [hurls])]
      rw [String.append_empty]
    have hclaim : claimedPlainSection r = "## " ++ r.base ++ "\n\n" ++ r.text := by
      unfold claimedPlainSection
      rw [if_neg (by simp [hurls])]
      rw [String.append_empty]
    have hstepA : (sectionOf r).data =
        List.intercalate ['\n']
          ((("## " ++ r.base) :: "" :: "```" :: (textLines r.text ++ ["```"])).map
            String.data) ++ ['\n'] := by
      rw [hsec]
      simp only [List.map_cons, List.map_append, List.map_nil, textLines_data]
      rw [intercalate_cons_ne _ _ _ (by simp),
        intercalate_cons_ne _ _ _ (by simp),
        intercalate_cons_ne _ _ _ (by simp),
        intercalate_append_one _ _ _ hTne, hT]
      simp [String.data_append, e0, e2, e3, e4, e5, List.append_assoc]
    have hH : ∀ c ∈ ("## " ++ r.base).data, isLineBreak c = false := by
      rw [String.data_append]
      intro c hc
      rcases List.mem_append.mp hc with h' | h'
      · exact (by decide : ∀ d ∈ ("## " : String).data, isLineBreak d = false) c h'
      · exact hb c h'
    have hTfreeS : ∀ s ∈ textLines r.text, ∀ c ∈ s.data, isLineBreak c = false := by
      intro s hsm
      obtain ⟨seg, hseg, rfl⟩ := List.mem_map.mp hsm
      exact hTfree seg hseg
    have hfree : ∀ l ∈ (("## " ++ r.base) :: "" :: "```" ::
        (textLines r.text ++ ["```"])).map String.data, ∀ c ∈ l, isLineBreak c = false := by
      rw [List.forall_mem_map]
      refine List.forall_mem_cons.mpr ⟨hH, List.forall_mem_cons.mpr ⟨by decide,
        List.forall_mem_cons.mpr ⟨by decide, List.forall_mem_append.mpr
          ⟨hTfreeS, List.forall_mem_singleton.mpr (by decide)⟩⟩⟩⟩
    have hlines : pySplitLines (sectionOf r) =
        ("## " ++ r.base) :: "" :: "```" :: (textLines r.text ++ ["```"]) := by
      unfold pySplitLines
      rw [hstepA, splitLinesAux_intercalate _ (by simp) hfree]
      rw [List.map_map]
      have hid : ∀ x ∈ ("## " ++ r.base) :: "" :: "```" ::
          (textLines r.text ++ ["```"]), (String.mk ∘ String.data) x = id x :=
        fun x _ => rfl
      rw [List.map_congr_left hid, List.map_id]
    have hfilter : (("## " ++ r.base) :: "" :: "```" ::
        (textLines r.text ++ ["```"])).filter keepPlainLine =
        ("## " ++ r.base) :: "" :: textLines r.text := by
      rw [List.filter_cons, if_pos (by rw [keepPlainLine_heading])]
      rw [List.filter_cons, if_pos (by decide)]
      rw [List.filter_cons, if_neg (by decide)]
      rw [List.filter_append]
      rw [List.filter_eq_self.mpr hl]
      rw [show (["```"] : List String).filter keepPlainLine = [] from by decide]
      rw [List.append_nil]
    unfold plainBlock
    rw [hlines, hfilter]
    rw [sintercalate_cons_ne _ _ _ (by simp [hTLne]),
      sintercalate_cons_ne _ _ _ hTLne, sintercalate_textLines]
    rw [show ("## " ++ r.base) ++ "\n" ++ ("" ++ "\n" ++ r.text) =
      claimedPlainSection r from String.ext (by
        rw [hclaim]
        simp [String.data_append, e5, e6, List.append_assoc])]
    exact hs
  · -- with links list
    have hBne : r.urls.map (fun u => "- " ++ u) ≠ [] := by
      simpa using hurls
    have hsec : sectionOf r = "## " ++ r.base ++ "\n\n```\n" ++ r.text ++ "\n```\n" ++
        ("\n**Links detected:**\n" ++
          String.intercalate "\n" (r.urls.map (fun u => "- " ++ u)) ++ "\n") := by
      unfold sectionOf
      rw [if_pos hurls]
    have hclaim : claimedPlainSection r = "## " ++ r.base ++ "\n\n" ++ r.text ++
        ("\n\n" ++ String.intercalate "\n" (r.urls.map (fun u => "- " ++ u))) := by
      unfold claimedPlainSection
      rw [if_pos hurls]
    have hstepA : (sectionOf r).data =
        List.intercalate ['\n']
          ((("## " ++ r.base) :: "" :: "```" :: (textLines r.text ++ ["```"] ++
            ("" :: "**Links detected:**" :: r.urls.map (fun u => "- " ++ u)))).map
            String.data) ++ ['\n'] := by
      rw [hsec]
      simp only [List.map_cons, List.map_append, List.map_nil, textLines_data]
      rw [intercalate_cons_ne _ _ _ (by simp),
        intercalate_cons_ne _ _ _ (by simp),
        intercalate_cons_ne _ _ _ (by simp),
        intercalate_append_ne _ _ _ (by simp [hTne]) (by simp),
        intercalate_append_ne _ _ _ hTne (by simp),
        intercalate_one, hT,
        intercalate_cons_ne _ _ _ (by simp [hBne]),
        intercalate_cons_ne _ _ _ (by simpa using hBne)]
      simp [String.data_append, data_intercalate, e0, e2, e3, e4, e5, e6,
        (show ("**Links detected:**" : String).data =
          ['*', '*', 'L', 'i', 'n', 'k', 's', ' ', 'd', 'e', 't', 'e', 'c', 't',
            'e', 'd', ':', '*', '*'] from rfl),
        List.append_assoc]
    have hH : ∀ c ∈ ("## " ++ r.base).data, isLineBreak c = false := by
      rw [String.data_append]
      intro c hc
      rcases List.mem_append.mp hc with h' | h'
      · exact (by decide : ∀ d ∈ ("## " : String).data, isLineBreak d = false) c h'
      · exact hb c h'
    have hTfreeS : ∀ s ∈ textLines r.text, ∀ c ∈ s.data, isLineBreak c = false := by
      intro s hsm
      obtain ⟨seg, hseg, rfl⟩ := List.mem_map.mp hsm
      exact hTfree seg hseg
    have hBfree : ∀ s ∈ r.urls.map (fun u => "- " ++ u), ∀ c ∈ s.data,
        isLineBreak c = false := by
      rw [List.forall_mem_map]
      intro u hum
      rw [String.data_append]
      intro c hc
      rcases List.mem_append.mp hc with h' | h'
      · exact (by decide : ∀ d ∈ ("- " : String).data, isLineBreak d = false) c h'
      · exact hu u hum c h'
    have hfree : ∀ l ∈ (("## " ++ r.base) :: "" :: "```" :: (textLines r.text ++ ["```"] ++
        ("" :: "**Links detected:**" :: r.urls.map (fun u => "- " ++ u)))).map
          String.data, ∀ c ∈ l, isLineBreak c = false := by
      rw [List.forall_mem_map]
      refine List.forall_mem_cons.mpr ⟨hH, List.forall_mem_cons.mpr ⟨by decide,
        List.forall_mem_cons.mpr ⟨by decide, List.forall_mem_append.mpr
          ⟨List.forall_mem_append.mpr ⟨hTfreeS, List.forall_mem_singleton.mpr (by decide)⟩,
            List.forall_mem_cons.mpr ⟨by decide, List.forall_mem_cons.mpr
              ⟨by decide, hBfree⟩⟩⟩⟩⟩⟩
    have hlines : pySplitLines (sectionOf r) =
        ("## " ++ r.base) :: "" :: "```" :: (textLines r.text ++ ["```"] ++
          ("" :: "**Links detected:**" :: r.urls.map (fun u => "- " ++ u))) := by
      unfold pySplitLines
      rw [hstepA, splitLinesAux_intercalate _ (by simp) hfree]
      rw [List.map_map]
      have hid : ∀ x ∈ ("## " ++ r.base) :: "" :: "```" :: (textLines r.text ++ ["```"] ++
          ("" :: "**Links detected:**" :: r.urls.map (fun u => "- " ++ u))),
          (String.mk ∘ String.data) x = id x := fun x _ => rfl
      rw [List.map_congr_left hid, List.map_id]
    have hfilter : (("## " ++ r.base) :: "" :: "```" :: (textLines r.text ++ ["```"] ++
        ("" :: "**Links detected:**" :: r.urls.map (fun u => "- " ++ u)))).filter
          keepPlainLine =
        ("## " ++ r.base) :: "" :: (textLines r.text ++
          ("" :: r.urls.map (fun u => "- " ++ u))) := by
      rw [List.filter_cons, if_pos (by rw [keepPlainLine_heading])]
      rw [List.filter_cons, if_pos (by decide)]
      rw [List.filter_cons, if_neg (by decide)]
      rw [List.filter_append, List.filter_append]
      rw [List.filter_eq_self.mpr hl]
      rw [show (["```"] : List String).filter keepPlainLine = [] from by decide]
      rw [List.filter_cons, if_pos (by decide)]
      rw [List.filter_cons, if_neg (by decide)]
      rw [List.filter_eq_self.mpr (fun u hum => by
        obtain ⟨v, hv, rfl⟩ := List.mem_map.mp hum
        exact keepPlainLine_bullet v)]
      simp [List.append_assoc]
    unfold plainBlock
    rw [hlines, hfilter]
    rw [sintercalate_cons_ne _ _ _ (by simp [hTLne]),
      sintercalate_cons_ne _ _ _ (by simp [hTLne]),
      sintercalate_append_ne _ _ _ hTLne (by simp),
      sintercalate_textLines,
      sintercalate_cons_ne _ _ _ hBne]
    rw [show ("## " ++ r.base) ++ "\n" ++ ("" ++ "\n" ++ (r.text ++ "\n" ++
      ("" ++ "\n" ++ String.intercalate "\n" (r.urls.map (fun u => "- " ++ u))))) =
      claimedPlainSection r from String.ext (by
        rw [hclaim]
        simp [String.data_append, e5, e6, List.append_assoc])]
    exact hs

/-- A case-insensitive prefix is no longer than the scanned list. -/
theorem ciPrefix_le (pat cs : List Char) (h : ciPrefix pat cs = true) :
    pat.length ≤ cs.length := by
  unfold ciPrefix at h
  have heq := beq_iff_eq.mp h
  have hlen := congrArg List.length heq
  rw [List.length_map, List.length_take] at hlen
  omega

/-- The matched scheme is one of the three literals, case-insensitively. -/
theorem schemeLen_cases (cs : List Char) (k : Nat) (h : schemeLen cs = some k) :
    ∃ pat, (pat = "https://".data ∨ pat = "http://".data ∨ pat = "www.".data) ∧
      pat.length = k ∧ ciPrefix pat cs = true := by
  unfold schemeLen at h
  split_ifs at h with h1 h2 h3
  · exact ⟨"https://".data, Or.inl rfl, by injection h with h', h1⟩
  · exact ⟨"http://".data, Or.inr (Or.inl rfl), by injection h with h', h2⟩
  · exact ⟨"www.".data, Or.inr (Or.inr rfl), by injection h with h', h3⟩

/-- Inversion of a successful match: its length splits into the scheme, a
non-empty primary run, and (when the parenthesis group matched) the whole
secondary run. -/
theorem matchUrlLen_inv (cs : List Char) (n : Nat) (h : matchUrlLen cs = some n) :
    ∃ k, schemeLen cs = some k ∧
      ((cs.drop k).takeWhile urlChar1).length ≠ 0 ∧
      ((part3ok (((cs.drop k).drop ((cs.drop k).takeWhile urlChar1).length).takeWhile
          urlChar2) = true ∧
        n = k + ((cs.drop k).takeWhile urlChar1).length +
          (((cs.drop k).drop ((cs.drop k).takeWhile urlChar1).length).takeWhile
            urlChar2).length) ∨
       (part3ok (((cs.drop k).drop ((cs.drop k).takeWhile urlChar1).length).takeWhile
          urlChar2) = false ∧
        n = k + ((cs.drop k).takeWhile urlChar1).length)) := by
  unfold matchUrlLen at h
  cases hs : schemeLen cs with
  | none => rw [hs] at h; exact absurd h (by simp)
  | some k =>
    rw [hs] at h
    simp only at h
    refine ⟨k, rfl, ?_, ?_⟩
    · intro h0
      rw [if_pos h0] at h
      exact absurd h (by simp)
    · by_cases h0 : ((cs.drop k).takeWhile urlChar1).length = 0
      · rw [if_pos h0] at h
        exact absurd h (by simp)
      · rw [if_neg h0] at h
        by_cases h3 : part3ok (((cs.drop k).drop
            ((cs.drop k).takeWhile urlChar1).length).takeWhile urlChar2) = true
        · rw [if_pos h3] at h
          injection h with h'
          exact Or.inl ⟨h3, h'.symm⟩
        · rw [if_neg h3] at h
          injection h with h'
          exact Or.inr ⟨Bool.not_eq_true _ ▸ Bool.of_not_eq_true h3, h'.symm⟩

/-- The primary run is no longer than what follows the scheme. -/
theorem run1_le (cs : List Char) (k : Nat) :
    ((cs.drop k).takeWhile urlChar1).length ≤ cs.length - k := by
  have := (List.takeWhile_prefix (l := cs.drop k) urlChar1).length_le
  rw [List.length_drop] at this
  exact this

/-- The secondary run is no longer than what follows the primary run. -/
theorem run2_le (cs : List Char) (k p : Nat) :
    (((cs.drop k).drop p).takeWhile urlChar2).length ≤ cs.length - k - p := by
  have := (List.takeWhile_prefix (l := (cs.drop k).drop p) urlChar2).length_le
  rw [List.length_drop, List.length_drop] at this
  exact this

/-- A match consumes at least one and at most all characters. -/
theorem matchUrlLen_bounds (cs : List Char) (n : Nat) (h : matchUrlLen cs = some n) :
    1 ≤ n ∧ n ≤ cs.length := by
  obtain ⟨k, hs, h0, hcase⟩ := matchUrlLen_inv cs n h
  obtain ⟨pat, _, hlen, hci⟩ := schemeLen_cases cs k hs
  have hk : k ≤ cs.length := hlen ▸ ciPrefix_le pat cs hci
  have h1 := run1_le cs k
  have h2 := run2_le cs k ((cs.drop k).takeWhile urlChar1).length
  rcases hcase with ⟨_, hn⟩ | ⟨_, hn⟩ <;> omega

/-- Whitespace is unchanged by lower-casing. -/
theorem toLower_ws_fixed (c : Char) (h : isWsChar c = true) : Char.toLower c = c := by
  unfold isWsChar at h
  simp only [Bool.or_eq_true, decide_eq_true_eq, or_assoc] at h
  rcases h with h | h | h | h | h | h | h | h | h | h | h <;> (subst h; decide)

/-- Characters of the scheme-tail class are not whitespace. -/
theorem urlChar1_no_ws (c : Char) (h : urlChar1 c = true) : isWsChar c = false := by
  cases hw : isWsChar c with
  | false => rfl
  | true => unfold urlChar1 at h; rw [hw] at h; simp at h

/-- Characters of the parenthesis-tail class are not whitespace. -/
theorem urlChar2_no_ws (c : Char) (h : urlChar2 c = true) : isWsChar c = false := by
  cases hw : isWsChar c with
  | false => rfl
  | true => unfold urlChar2 at h; rw [hw] at h; simp at h

/-- Whitespace characters are not word characters. -/
theorem ws_not_word (c : Char) (h : isWsChar c = true) : isWordChar c = false := by
  unfold isWsChar at h
  simp only [Bool.or_eq_true, decide_eq_true_eq, or_assoc] at h
  rcases h with h | h | h | h | h | h | h | h | h | h | h <;> (subst h; decide)

/-- The scheme characters of a match are not whitespace. -/
theorem scheme_no_ws (cs : List Char) (k : Nat) (hs : schemeLen cs = some k) :
    ∀ c ∈ cs.take k, isWsChar c = false := by
  obtain ⟨pat, hpat, hlen, hci⟩ := schemeLen_cases cs k hs
  intro c hc
  have hmap : (cs.take pat.length).map Char.toLower = pat := beq_iff_eq.mp hci
  have hcmem : Char.toLower c ∈ pat := by
    rw [← hmap]
    exact List.mem_map_of_mem Char.toLower (by rw [hlen]; exact hc)
  cases hw : isWsChar c with
  | false => rfl
  | true =>
    rw [toLower_ws_fixed c hw] at hcmem
    have hnw : ∀ x ∈ pat, isWsChar x = false := by
      rcases hpat with h' | h' | h' <;> (subst h'; decide)
    rw [hnw c hcmem] at hw
    exact hw.symm

/-- No character of a match is whitespace. -/
theorem match_no_ws (cs : List Char) (n : Nat) (h : matchUrlLen cs = some n) :
    ∀ c ∈ cs.take n, isWsChar c = false := by
  obtain ⟨k, hs, _, hcase⟩ := matchUrlLen_inv cs n h
  have ht2 : ∀ c ∈ (cs.drop k).takeWhile urlChar1, isWsChar c = false :=
    fun c hc => urlChar1_no_ws c (List.mem_takeWhile_imp hc)
  have ht2eq : (cs.drop k).take ((cs.drop k).takeWhile urlChar1).length =
      (cs.drop k).takeWhile urlChar1 :=
    (List.prefix_iff_eq_take.mp (List.takeWhile_prefix urlChar1)).symm
  rcases hcase with ⟨_, hn⟩ | ⟨_, hn⟩
  · intro c hc
    rw [hn] at hc
    rw [show k + ((cs.drop k).takeWhile urlChar1).length +
        (((cs.drop k).drop ((cs.drop k).takeWhile urlChar1).length).takeWhile
          urlChar2).length = k + (((cs.drop k).takeWhile urlChar1).length +
        (((cs.drop k).drop ((cs.drop k).takeWhile urlChar1).length).takeWhile
          urlChar2).length) from by omega] at hc
    rw [List.take_add, List.take_add] at hc
    rcases List.mem_append.mp hc with hc | hc
    · exact scheme_no_ws cs k hs c hc
    · rcases List.mem_append.mp hc with hc | hc
      · rw [ht2eq] at hc
        exact ht2 c hc
      · have hreq : ((cs.drop k).drop ((cs.drop k).takeWhile urlChar1).length).take
            (((cs.drop k).drop ((cs.drop k).takeWhile urlChar1).length).takeWhile
              urlChar2).length =
            ((cs.drop k).drop ((cs.drop k).takeWhile urlChar1).length).takeWhile
              urlChar2 :=
          (List.prefix_iff_eq_take.mp (List.takeWhile_prefix urlChar2)).symm
        rw [hreq] at hc
        exact urlChar2_no_ws c (List.mem_takeWhile_imp hc)
  · intro c hc
    rw [hn, List.take_add] at hc
    rcases List.mem_append.mp hc with hc | hc
    · exact scheme_no_ws cs k hs c hc
    · rw [ht2eq] at hc
      exact ht2 c hc

/-- Step equation: boundary holds and the pattern matches. -/
theorem scanAux_cons_match (fuel : Nat) (prev : Option Char) (c : Char)
    (cs : List Char) (n : Nat) (hb : atBoundary prev c = true)
    (h : matchUrlLen (c :: cs) = some n) :
    scanAux (fuel + 1) prev (c :: cs) =
      ((c :: cs).take n) ::
        scanAux fuel (((c :: cs).take n).getLast?) ((c :: cs).drop n) := by
  simp only [scanAux, hb, if_true, h]

/-- Step equation: the pattern does not match at this position. -/
theorem scanAux_cons_step (fuel : Nat) (prev : Option Char) (c : Char)
    (cs : List Char) (h : matchUrlLen (c :: cs) = none) :
    scanAux (fuel + 1) prev (c :: cs) = scanAux fuel (some c) cs := by
  simp only [scanAux, h]
  cases atBoundary prev c <;> simp

/-- Step equation: no word boundary at this position. -/
theorem scanAux_cons_nb (fuel : Nat) (prev : Option Char) (c : Char)
    (cs : List Char) (hb : atBoundary prev c = false) :
    scanAux (fuel + 1) prev (c :: cs) = scanAux fuel (some c) cs := by
  simp only [scanAux, hb]
  simp

/-- The scan result does not depend on the fuel once it covers the input. -/
theorem scanAux_fuel_eq (fuel₁ : Nat) : ∀ (fuel₂ : Nat) (prev : Option Char)
    (cs : List Char), cs.length ≤ fuel₁ → cs.length ≤ fuel₂ →
    scanAux fuel₁ prev cs = scanAux fuel₂ prev cs := by
  induction fuel₁ with
  | zero =>
    intro fuel₂ prev cs h1 _
    have hnil : cs = [] := List.length_eq_zero.mp (Nat.le_zero.mp h1)
    subst hnil
    cases fuel₂ <;> rfl
  | succ f ih =>
    intro fuel₂ prev cs h1 h2
    cases cs with
    | nil => cases fuel₂ <;> rfl
    | cons c cs' =>
      cases fuel₂ with
      | zero => simp at h2
      | succ f₂ =>
        have hl1 : cs'.length ≤ f := by simpa using h1
        have hl2 : cs'.length ≤ f₂ := by simpa using h2
        cases hb : atBoundary prev c with
        | false =>
          rw [scanAux_cons_nb f prev c cs' hb, scanAux_cons_nb f₂ prev c cs' hb]
          exact ih f₂ (some c) cs' hl1 hl2
        | true =>
          cases hm : matchUrlLen (c :: cs') with
          | none =>
            rw [scanAux_cons_step f prev c cs' hm,
              scanAux_cons_step f₂ prev c cs' hm]
            exact ih f₂ (some c) cs' hl1 hl2
          | some n =>
            obtain ⟨hn1, hn2⟩ := matchUrlLen_bounds _ _ hm
            rw [scanAux_cons_match f prev c cs' n hb hm,
              scanAux_cons_match f₂ prev c cs' n hb hm]
            congr 1
            apply ih
            · rw [List.length_drop]
              simp only [List.length_cons] at hn2 ⊢
              omega
            · rw [List.length_drop]
              simp only [List.length_cons] at hn2 ⊢
              omega

/-- No scheme literal matches at a whitespace character. -/
theorem ws_ciPrefix_false (w : Char) (rest : List Char) (hw : isWsChar w = true)
    (pHead : Char) (pTail : List Char) (hne : isWsChar pHead = false) :
    ciPrefix (pHead :: pTail) (w :: rest) = false := by
  cases hc : ciPrefix (pHead :: pTail) (w :: rest) with
  | false => rfl
  | true =>
    unfold ciPrefix at hc
    have heq := beq_iff_eq.mp hc
    rw [List.length_cons, List.take_succ_cons, List.map_cons] at heq
    have hhead : Char.toLower w = pHead := by injection heq
    rw [toLower_ws_fixed w hw] at hhead
    rw [hhead, hne] at hw
    exact absurd hw (by simp)

/-- The pattern never matches starting at a whitespace character. -/
theorem ws_match_none (w : Char) (rest : List Char) (hw : isWsChar w = true) :
    matchUrlLen (w :: rest) = none := by
  have hs : schemeLen (w :: rest) = none := by
    unfold schemeLen
    rw [ws_ciPrefix_false w rest hw 'h' "ttps://".data (by decide),
      ws_ciPrefix_false w rest hw 'h' "ttp://".data (by decide),
      ws_ciPrefix_false w rest hw 'w' "ww.".data (by decide)]
    simp
  unfold matchUrlLen
  rw [hs]

/-- A whitespace character is an absolute barrier for the scan: the matches
found on `p ++ w :: rest` are some matches inside `p`, followed by exactly
the matches of the scan of `rest` resumed after `w`. -/
theorem scanAux_ws_barrier : ∀ (fuel : Nat) (p : List Char) (w : Char)
    (rest : List Char) (prev : Option Char), isWsChar w = true →
    (p ++ w :: rest).length ≤ fuel →
    ∃ ms, scanAux fuel prev (p ++ w :: rest) =
      ms ++ scanAux rest.length (some w) rest := by
  intro fuel
  induction fuel with
  | zero =>
    intro p w rest prev _ hlen
    simp at hlen
  | succ f ih =>
    intro p w rest prev hw hlen
    cases p with
    | nil =>
      refine ⟨[], ?_⟩
      rw [List.nil_append, List.nil_append,
        scanAux_cons_step f prev w rest (ws_match_none w rest hw)]
      exact scanAux_fuel_eq f rest.length (some w) rest (by simpa using hlen)
        le_rfl
    | cons c p' =>
      have hlen' : (p' ++ w :: rest).length ≤ f := by simpa using hlen
      rw [List.cons_append]
      cases hb : atBoundary prev c with
      | false =>
        rw [scanAux_cons_nb f prev c (p' ++ w :: rest) hb]
        exact ih p' w rest (some c) hw hlen'
      | true =>
        cases hm : matchUrlLen (c :: (p' ++ w :: rest)) with
        | none =>
          rw [scanAux_cons_step f prev c (p' ++ w :: rest) hm]
          exact ih p' w rest (some c) hw hlen'
        | some n =>
          obtain ⟨hn1, hn2⟩ := matchUrlLen_bounds _ _ hm
          have hnle : n ≤ p'.length + 1 := by
            by_contra hgt
            push_neg at hgt
            have hwmem : w ∈ (c :: (p' ++ w :: rest)).take n := by
              have hsplit : c :: (p' ++ w :: rest) = (c :: p') ++ (w :: rest) := by
                simp
              rw [hsplit, List.take_append_eq_append_take]
              refine List.mem_append.mpr (Or.inr ?_)
              have hpos : 1 ≤ n - (c :: p').length := by
                simp only [List.length_cons]
                omega
              cases hd : n - (c :: p').length with
              | zero => omega
              | succ m => rw [List.take_succ_cons]; exact List.mem_cons_self _ _
            have hfalse := match_no_ws _ _ hm w hwmem
            rw [hw] at hfalse
            exact absurd hfalse (by simp)
          rw [scanAux_cons_match f prev c (p' ++ w :: rest) n hb hm]
          have hdrop : (c :: (p' ++ w :: rest)).drop n =
              ((c :: p').drop n) ++ (w :: rest) := by
            have hsplit : c :: (p' ++ w :: rest) = (c :: p') ++ (w :: rest) := by
              simp
            rw [hsplit, List.drop_append_of_le_length (by simpa using hnle)]
          rw [hdrop]
          obtain ⟨ms', hms'⟩ := ih ((c :: p').drop n) w rest
            (((c :: (p' ++ w :: rest)).take n).getLast?) hw
            (by simp only [List.length_append, List.length_drop,
                List.length_cons] at hlen ⊢; omega)
          exact ⟨((c :: (p' ++ w :: rest)).take n) :: ms',
            by rw [hms', List.cons_append]⟩

/-- The pattern matches the whole 40-character token
`http://example.com/path(seg1)(seg2)more.` at its start, whatever follows,
as long as what follows is empty or starts with whitespace. -/
theorem matchUrlLen_token (post : List Char)
    (hpost : post = [] ∨ ∃ d p', post = d :: p' ∧ isWsChar d = true) :
    matchUrlLen ("http://example.com/path(seg1)(seg2)more.".data ++ post) =
      some 40 := by
  have h1 : ciPrefix "https://".data
      ("http://example.com/path(seg1)(seg2)more.".data ++ post) = false := by
    unfold ciPrefix
    rw [List.take_append_of_le_length (by decide)]
    decide
  have h2 : ciPrefix "http://".data
      ("http://example.com/path(seg1)(seg2)more.".data ++ post) = true := by
    unfold ciPrefix
    rw [List.take_append_of_le_length (by decide)]
    decide
  have hsch : schemeLen
      ("http://example.com/path(seg1)(seg2)more.".data ++ post) = some 7 := by
    unfold schemeLen
    rw [h1, h2]
    simp
  have hdrop7 : ("http://example.com/path(seg1)(seg2)more.".data ++ post).drop 7
      = "example.com/path(seg1)(seg2)more.".data ++ post := by
    rw [List.drop_append_of_le_length (by decide),
      (by decide : "http://example.com/path(seg1)(seg2)more.".data.drop 7 =
        "example.com/path(seg1)(seg2)more.".data)]
  have htw1 : ("example.com/path(seg1)(seg2)more.".data ++ post).takeWhile
      urlChar1 = "example.com/path".data := by
    rw [List.takeWhile_append, if_neg (by decide)]
    decide
  have hlen1 : ("example.com/path".data).length = 16 := by decide
  have hdrop16 : ("example.com/path(seg1)(seg2)more.".data ++ post).drop 16
      = "(seg1)(seg2)more.".data ++ post := by
    rw [List.drop_append_of_le_length (by decide),
      (by decide : "example.com/path(seg1)(seg2)more.".data.drop 16 =
        "(seg1)(seg2)more.".data)]
  have htw2 : ("(seg1)(seg2)more.".data ++ post).takeWhile urlChar2 =
      "(seg1)(seg2)more.".data := by
    rw [List.takeWhile_append, if_pos (by decide)]
    rcases hpost with h | ⟨d, p', hp, hd⟩
    · subst h
      simp
    · subst hp
      rw [List.takeWhile_cons,
        (by rw [show urlChar2 d = !(isWsChar d || d = '<' || d = '>' ||
          d = '"' || d = squote) from rfl, hd]; rfl : urlChar2 d = false)]
      simp
  unfold matchUrlLen
  rw [hsch]
  simp only [hdrop7, htw1, hlen1, hdrop16, htw2]
  decide

/-- Starting at the token after the text start or a whitespace character,
the scan emits the token itself as a match. -/
theorem scanAux_token (post : List Char) (prev : Option Char) (fuel : Nat)
    (hprev : prev = none ∨ ∃ w, prev = some w ∧ isWsChar w = true)
    (hpost : post = [] ∨ ∃ d p', post = d :: p' ∧ isWsChar d = true)
    (hfuel : ("http://example.com/path(seg1)(seg2)more.".data ++ post).length ≤
      fuel) :
    "http://example.com/path(seg1)(seg2)more.".data ∈
      scanAux fuel prev
        ("http://example.com/path(seg1)(seg2)more.".data ++ post) := by
  cases fuel with
  | zero => simp at hfuel
  | succ f =>
    have hsplit : "http://example.com/path(seg1)(seg2)more.".data ++ post =
        'h' :: ("ttp://example.com/path(seg1)(seg2)more.".data ++ post) := rfl
    have hb : atBoundary prev 'h' = true := by
      rcases hprev with h | ⟨w, hp, hw⟩
      · subst h
        decide
      · subst hp
        show (isWordChar w != isWordChar 'h') = true
        rw [ws_not_word w hw]
        decide
    have hm : matchUrlLen
        ('h' :: ("ttp://example.com/path(seg1)(seg2)more.".data ++ post)) =
        some 40 := by
      rw [← hsplit]
      exact matchUrlLen_token post hpost
    rw [hsplit, scanAux_cons_match f prev 'h'
      ("ttp://example.com/path(seg1)(seg2)more.".data ++ post) 40 hb hm]
    have htake : ('h' :: ("ttp://example.com/path(seg1)(seg2)more.".data ++
        post)).take 40 = "http://example.com/path(seg1)(seg2)more.".data := by
      rw [← hsplit, List.take_append_of_le_length (by decide)]
      decide
    rw [htake]
    exact List.mem_cons_self _ _

/-- C2: in any text in which the token
`http://example.com/path(seg1)(seg2)more.` is delimited by whitespace (or by
the ends of the text), the extractor emits
`http://example.com/path(seg1)(seg2)more` for it: the trailing period is
stripped while the parenthesized path segments are preserved. -/
theorem extract_urls_token (pre post : List Char)
    (hpre : pre = [] ∨ ∃ p' w, pre = p' ++ [w] ∧ isWsChar w = true)
    (hpost : post = [] ∨ ∃ d p', post = d :: p' ∧ isWsChar d = true) :
    "http://example.com/path(seg1)(seg2)more" ∈
      extract_urls (String.mk
        (pre ++ "http://example.com/path(seg1)(seg2)more.".data ++ post)) := by
  have hmem : "http://example.com/path(seg1)(seg2)more.".data ∈
      scanAux (pre ++ "http://example.com/path(seg1)(seg2)more.".data ++
        post).length none
        (pre ++ "http://example.com/path(seg1)(seg2)more.".data ++ post) := by
    rcases hpre with h | ⟨p', w, hp, hw⟩
    · subst h
      rw [List.nil_append]
      exact scanAux_token post none _ (Or.inl rfl) hpost le_rfl
    · subst hp
      have hassoc : (p' ++ [w]) ++
          "http://example.com/path(seg1)(seg2)more.".data ++ post =
          p' ++ w :: ("http://example.com/path(seg1)(seg2)more.".data ++
            post) := by
        simp
      rw [hassoc]
      obtain ⟨ms, hms⟩ := scanAux_ws_barrier
        (p' ++ w :: ("http://example.com/path(seg1)(seg2)more.".data ++
          post)).length p' w
        ("http://example.com/path(seg1)(seg2)more.".data ++ post) none hw
        le_rfl
      rw [hms]
      exact List.mem_append.mpr (Or.inr
        (scanAux_token post (some w) _ (Or.inr ⟨w, rfl, hw⟩) hpost le_rfl))
  show _ ∈ List.map _ (scanAux _ none _)
  exact List.mem_map.mpr ⟨"http://example.com/path(seg1)(seg2)more.".data,
    hmem, by decide⟩

theorem extract_urls_token_witness :
    "http://example.com/path(seg1)(seg2)more" ∈
      extract_urls (String.mk ("Check ".data ++
        "http://example.com/path(seg1)(seg2)more.".data ++ [])) :=
  extract_urls_token "Check ".data []
    (Or.inr ⟨"Check".data, ' ', by decide, by decide⟩) (Or.inl rfl)

/-- C3 (amended): a match that still begins with the exact lowercase `www.`
after trailing-punctuation stripping is emitted with `http://` prefixed, and
`www.example.org,` yields `http://www.example.org`; matches whose
`www`/scheme prefix is not exactly lowercase are emitted unchanged, without
a scheme, so not every emitted URL carries one. -/
theorem www_normalization :
    (∀ (s : String) (m : List Char), m ∈ urlMatches s →
        "www.".data.isPrefixOf (rstripPunct m) = true →
        String.mk (normalizeUrl m) ∈ extract_urls s ∧
        pyStartsWith (String.mk (normalizeUrl m)) "http://" = true) ∧
    extract_urls "www.example.org," = ["http://www.example.org"] := by
  constructor
  · intro s m hmem hpre
    constructor
    · exact List.mem_map_of_mem _ hmem
    · show "http://".data.isPrefixOf (normalizeUrl m) = true
      unfold normalizeUrl
      rw [if_pos hpre]
      exact List.isPrefixOf_iff_prefix.mpr (List.prefix_append _ _)
  · decide

theorem www_normalization_witness :
    String.mk (normalizeUrl "www.example.org,".data) ∈
        extract_urls "www.example.org," ∧
      pyStartsWith (String.mk (normalizeUrl "www.example.org,".data))
        "http://" = true :=
  www_normalization.1 "www.example.org," "www.example.org,".data (by decide)
    (by decide)

theorem www_case_counterexample :
    extract_urls "WWW.example.org" = ["WWW.example.org"] ∧
    pyStartsWith "WWW.example.org" "http://" = false ∧
    pyStartsWith "WWW.example.org" "https://" = false := by
  decide

/-- C5 (amended): the combined plain text holds the same sections in the
same order as the combined markdown, joined by the same horizontal-rule
separator, each plain section being the markdown section with only the
fence framing lines and the links label line removed — provided each
recognized text uses only `'\n'` line boundaries, none of its lines starts
with a fence or the label, base names and URLs contain no line boundary,
and the reconstructed section content has no leading/trailing whitespace
for `.strip()` to eat.  (Without these provisos the `.strip()` call and the
prefix-based line filter can drop section content; see the
counterexample.) -/
theorem md_txt_structure (results : List ImageResult)
    (h : ∀ r ∈ results,
      (∀ c ∈ r.base.data, isLineBreak c = false) ∧
      (∀ c ∈ r.text.data, isLineBreak c = true → c = '\n') ∧
      (∀ ln ∈ textLines r.text, keepPlainLine ln = true) ∧
      (∀ u ∈ r.urls, ∀ c ∈ u.data, isLineBreak c = false) ∧
      pyStrip (claimedPlainSection r) = claimedPlainSection r) :
    combinedTxt (results.map sectionOf) =
      String.intercalate SECTION_SEP (results.map claimedPlainSection) ++ "\n" ∧
    combinedMd (results.map sectionOf) =
      "# OCR Output\n\n" ++
        String.intercalate SECTION_SEP (results.map sectionOf) ++ "\n" := by
  constructor
  · unfold combinedTxt
    rw [List.map_map]
    have : ∀ r ∈ results, (plainBlock ∘ sectionOf) r = claimedPlainSection r := by
      intro r hr
      obtain ⟨h1, h2, h3, h4, h5⟩ := h r hr
      exact plainBlock_sectionOf r h1 h2 h3 h4 h5
    rw [List.map_congr_left this]
  · rfl

/-- Witness for `md_txt_structure` at a two-line text with one URL. -/
theorem md_txt_structure_witness :
    combinedTxt ([(⟨"img", "line1\nline2", ["http://a.b"]⟩ : ImageResult)].map sectionOf) =
      String.intercalate SECTION_SEP
        ([(⟨"img", "line1\nline2", ["http://a.b"]⟩ : ImageResult)].map
          claimedPlainSection) ++ "\n" ∧
    combinedMd ([(⟨"img", "line1\nline2", ["http://a.b"]⟩ : ImageResult)].map sectionOf) =
      "# OCR Output\n\n" ++
        String.intercalate SECTION_SEP
          ([(⟨"img", "line1\nline2", ["http://a.b"]⟩ : ImageResult)].map sectionOf) ++ "\n" :=
  md_txt_structure [⟨"img", "line1\nline2", ["http://a.b"]⟩]
    (by
      intro r hr
      rw [List.mem_singleton] at hr
      subst hr
      refine ⟨by decide, by decide, by decide, by decide, by decide⟩)

/-- C5 counterexample: with one image whose recognized text is empty, the
plain text is `"## img\n"` — the `.strip()` call drops the (empty)
recognized-text line — while the markdown section minus its framing lines
still holds it, so the two aggregates are not related by merely removing
the fence and label lines. -/
theorem md_txt_counterexample :
    combinedTxt ([(⟨"img", "", []⟩ : ImageResult)].map sectionOf) = "## img\n" ∧
    String.intercalate SECTION_SEP
      ([(⟨"img", "", []⟩ : ImageResult)].map claimedPlainSection) ++ "\n" =
      "## img\n\n\n" ∧
    combinedTxt ([(⟨"img", "", []⟩ : ImageResult)].map sectionOf) ≠
      String.intercalate SECTION_SEP
        ([(⟨"img", "", []⟩ : ImageResult)].map claimedPlainSection) ++ "\n" :=
  ⟨by decide, by decide, by decide⟩

/-- C4: the deduplicated URL list holds exactly the distinct URLs in
first-seen order (membership-complete, duplicate-free, order-preserving,
with the first-seen recursion; `[a, b, a, c, b]` gives `urls.txt` content
`a`, `b`, `c`), while the csv mapping keeps every occurrence, one
`file,url` row per occurrence, undeduplicated and in processing order. -/
theorem url_dedup_and_csv (occ : List (String × String)) (a b c : String)
    (hfields : ∀ p ∈ occ, csvPlain p.1 = true ∧ csvPlain p.2 = true)
    (hab : a ≠ b) (hac : a ≠ c) (hbc : b ≠ c) :
    (∀ u, u ∈ dedupUrls (occ.map Prod.snd) ↔ u ∈ occ.map Prod.snd) ∧
    (dedupUrls (occ.map Prod.snd)).Nodup ∧
    (dedupUrls (occ.map Prod.snd)).Sublist (occ.map Prod.snd) ∧
    (∀ u rest, dedupUrls (u :: rest) = u :: dedupUrls (rest.filter (fun v => v ≠ u))) ∧
    dedupUrls [a, b, a, c, b] = [a, b, c] ∧
    urlsTxtContent [a, b, a, c, b] = a ++ "\n" ++ b ++ "\n" ++ c ++ "\n" ∧
    pySplitLines (urlsCsvContent occ) =
      "file,url" :: occ.map (fun p => p.1 ++ "," ++ p.2) := by
  have hba : b ≠ a := Ne.symm hab
  have hca : c ≠ a := Ne.symm hac
  have hcb : c ≠ b := Ne.symm hbc
  have h5 : dedupUrls [a, b, a, c, b] = [a, b, c] := by
    rw [dedupUrls_first_seen a [b, a, c, b]]
    rw [show [b, a, c, b].filter (fun v => v ≠ a) = [b, c, b] by
      simp [List.filter, hba, hca]]
    rw [dedupUrls_first_seen b [c, b]]
    rw [show [c, b].filter (fun v => v ≠ b) = [c] by simp [List.filter, hcb]]
    rfl
  refine ⟨?_, ?_, ?_, ?_, h5, ?_, csv_rows_lines occ hfields⟩
  · intro u
    unfold dedupUrls
    rw [dedup_foldl_mem]
    simp
  · exact dedup_foldl_nodup _ [] List.nodup_nil
  · obtain ⟨d, h₁, _, h₃⟩ := dedup_foldl_congr (occ.map Prod.snd) [] []
      (fun _ _ => Iff.rfl)
    unfold dedupUrls
    rw [h₁, List.nil_append]
    exact h₃
  · exact dedupUrls_first_seen
  · unfold urlsTxtContent
    rw [h5]
    show ("\n".intercalate [a, b, c] ++ if ([a, b, c] : List String) ≠ [] then "\n" else "") = _
    rw [if_pos (by simp)]
    rfl

/-- Witness for `url_dedup_and_csv` at concrete occurrences and URLs. -/
theorem url_dedup_and_csv_witness :
    (∀ u, u ∈ dedupUrls ([(("f", "a") : String × String), ("g", "b")].map Prod.snd) ↔
      u ∈ [(("f", "a") : String × String), ("g", "b")].map Prod.snd) ∧
    (dedupUrls ([(("f", "a") : String × String), ("g", "b")].map Prod.snd)).Nodup ∧
    (dedupUrls ([(("f", "a") : String × String), ("g", "b")].map Prod.snd)).Sublist
      ([(("f", "a") : String × String), ("g", "b")].map Prod.snd) ∧
    (∀ u rest, dedupUrls (u :: rest) = u :: dedupUrls (rest.filter (fun v => v ≠ u))) ∧
    dedupUrls ["a", "b", "a", "c", "b"] = ["a", "b", "c"] ∧
    urlsTxtContent ["a", "b", "a", "c", "b"] =
      "a" ++ "\n" ++ "b" ++ "\n" ++ "c" ++ "\n" ∧
    pySplitLines (urlsCsvContent [(("f", "a") : String × String), ("g", "b")]) =
      "file,url" :: [(("f", "a") : String × String), ("g", "b")].map
        (fun p => p.1 ++ "," ++ p.2) :=
  url_dedup_and_csv [("f", "a"), ("g", "b")] "a" "b" "c"
    (by decide) (by decide) (by decide) (by decide)

/-- C10: a URL whose match ends with the closing parenthesis of a balanced
pair loses that parenthesis to the trailing-punctuation strip
(`http://example.com/a(b)` yields the unbalanced `http://example.com/a(b`),
while a non-strippable character after the `)` preserves the pair. -/
theorem url_trailing_paren_stripped :
    extract_urls "http://example.com/a(b)" = ["http://example.com/a(b"] ∧
    extract_urls "http://example.com/a(b)x" = ["http://example.com/a(b)x"] :=
  ⟨by decide, by decide⟩

end SignalOcr
